import Mathlib

/- Verification development for the clip alignment and multi-track assembly
pipeline of the audio-sync backend (`app.py`): file grouping, offset
estimation, waveform alignment, mux planning and per-job orchestration.
Waveform samples are modelled as exact numbers (rationals for the aligner,
reals for the estimator, which divides by a standard deviation); paths and
filenames are strings. -/

/-- Recognized video file extensions (`VIDEO_EXTS` in the source). -/
def VIDEO_EXTS : List String :=
  [".mp4", ".mov", ".mxf", ".avi", ".mkv", ".braw", ".r3d", ".crm"]

/-- RAW-camera extensions that force a proxy re-encode (`RAW_VIDEO_EXTS`). -/
def RAW_VIDEO_EXTS : List String := [".braw", ".r3d", ".crm"]

/-- Recognized audio file extensions (`AUDIO_EXTS`). -/
def AUDIO_EXTS : List String := [".wav", ".mp3", ".m4a", ".aac", ".flac"]

/-- Uniform audio codec used for every output track (`DEFAULT_AUDIO_CODEC`). -/
def DEFAULT_AUDIO_CODEC : String := "pcm_s16le"

/-- Python `round` on an exact rational value: round half to even.  Models
`int(round(x))` as used in `build_aligned_external`. -/
def pyRound (q : ℚ) : ℤ :=
  let f := ⌊q⌋
  let r := q - f
  if r < 1/2 then f
  else if 1/2 < r then f + 1
  else if f % 2 = 0 then f else f + 1

/-- `build_aligned_external(cam_audio, ext_audio, sample_rate, offset_seconds)`:
shift/pad/trim the external waveform into a waveform of the reference length.
Mirrors the source line by line: the nonnegative-offset branch zero-pads the
front, the negative-offset branch drops leading samples; both zero-fill
whatever the external does not cover. -/
def build_aligned_external (cam_audio ext_audio : List ℚ) (sample_rate : ℕ)
    (offset_seconds : ℚ) : List ℚ :=
  let n_cam := cam_audio.length
  let ext := ext_audio
  if 0 ≤ offset_seconds then
    let pad_samples := (pyRound (offset_seconds * sample_rate)).toNat
    let start := pad_samples
    if n_cam ≤ start then List.replicate n_cam 0
    else
      let endIdx := min n_cam (start + ext.length)
      List.replicate start 0 ++ ext.take (endIdx - start) ++ List.replicate (n_cam - endIdx) 0
  else
    let lead_samples := (pyRound (-offset_seconds * sample_rate)).toNat
    if ext.length ≤ lead_samples then List.replicate n_cam 0
    else
      let trimmed := ext.drop lead_samples
      let endIdx := min n_cam trimmed.length
      trimmed.take endIdx ++ List.replicate (n_cam - endIdx) 0

/-- Characters of `s` lowercased; models python `str.lower()` for the ASCII
extension strings used by the pipeline. -/
def strToLower (s : String) : String := String.mk (s.data.map Char.toLower)

/-- Helper for `rfind`: scan with current index and best (last) hit so far. -/
def rfindAux (c : Char) : List Char → ℤ → ℤ → ℤ
  | [], _, best => best
  | x :: xs, i, best => rfindAux c xs (i + 1) (if x = c then i else best)

/-- Python `str.rfind` for a single character: index of the last occurrence,
`-1` when absent. -/
def rfind (c : Char) (l : List Char) : ℤ := rfindAux c l 0 (-1)

/-- The extension component of `os.path.splitext` (posix rules): the suffix
starting at the last dot of the basename, unless all characters of the
basename before that dot are themselves dots. -/
def splitextExt (p : String) : String :=
  let l := p.data
  let sepIdx := rfind '/' l
  let dotIdx := rfind '.' l
  if sepIdx < dotIdx then
    if ((l.drop (sepIdx + 1).toNat).take (dotIdx - sepIdx - 1).toNat).any (fun ch => ch != '.') then
      String.mk (l.drop dotIdx.toNat)
    else ""
  else ""

/-- The root component of `os.path.splitext`: the path with its extension
removed. -/
def splitextBase (p : String) : String :=
  String.mk (p.data.take (p.data.length - (splitextExt p).data.length))

/-- Clip key of a filename: the part of the basename before the first
underscore (`base.split("_")[0]` in the source). -/
def clipKeyOf (filename : String) : String :=
  String.mk ((splitextBase filename).data.takeWhile (fun ch => ch != '_'))

/-- One clip group: the video paths and external audio paths collected for a
clip key (`{"videos": [], "audios": []}` in the source). -/
structure ClipGroup where
  videos : List String
  audios : List String
  deriving DecidableEq

/-- First value bound to `k` in an insertion-ordered association list; models
python dict lookup (keys are unique by construction). -/
def alistFind (k : String) : List (String × ClipGroup) → Option ClipGroup
  | [] => none
  | kv :: rest => if kv.1 = k then some kv.2 else alistFind k rest

/-- Replace the value bound to `key` by `f` of it, leaving other entries
unchanged; models in-place mutation of the dict entry. -/
def updateEntry (clips : List (String × ClipGroup)) (key : String)
    (f : ClipGroup → ClipGroup) : List (String × ClipGroup) :=
  clips.map (fun kv => if kv.1 = key then (kv.1, f kv.2) else kv)

/-- One iteration of the loop body of `classify_and_group_files`: an empty
(sanitized) filename is skipped; otherwise a clip entry for the file's key is
created if absent (note: this `setdefault` happens before the extension
check), and the saved path is appended to the clip's videos or audios when the
extension is recognized. -/
def addFile (tmpdir : String) (clips : List (String × ClipGroup))
    (filename : String) : List (String × ClipGroup) :=
  if filename = "" then clips
  else
    let ext := strToLower (splitextExt filename)
    let dest := tmpdir ++ "/" ++ filename
    let key := clipKeyOf filename
    let clips1 := if (alistFind key clips).isSome then clips else clips ++ [(key, ⟨[], []⟩)]
    if ext ∈ VIDEO_EXTS then updateEntry clips1 key (fun c => ⟨c.videos ++ [dest], c.audios⟩)
    else if ext ∈ AUDIO_EXTS then updateEntry clips1 key (fun c => ⟨c.videos, c.audios ++ [dest]⟩)
    else clips1

/-- `classify_and_group_files(temp_dir, uploaded_files)`: fold the loop body
over the uploaded (already sanitized) filenames, producing the
insertion-ordered clip-key-to-group mapping. -/
def classify_and_group_files (tmpdir : String) (files : List String) :
    List (String × ClipGroup) :=
  files.foldl (addFile tmpdir) []

/-- The group stored for a key, with a missing key read as the empty group
(used to compare mappings by content). -/
def groupContent (clips : List (String × ClipGroup)) (key : String) : ClipGroup :=
  (alistFind key clips).getD ⟨[], []⟩

/-- The keys of the mapping, in insertion order. -/
def groupKeys (clips : List (String × ClipGroup)) : List String :=
  clips.map Prod.fst

/-- The ffmpeg input arguments of the mux plan: the reference video first,
then one aligned-audio file per external source, in order. -/
def mux_inputs (video_path : String) (aligned_paths : List String) : List String :=
  ["-i", video_path] ++ aligned_paths.flatMap (fun ap => ["-i", ap])

/-- The stream-mapping arguments of the mux plan: the video stream, the
reference video's first embedded audio stream, then input `i + 1`'s audio for
each external source `i`. -/
def mux_maps (aligned_paths : List String) : List String :=
  ["-map", "0:v:0", "-map", "0:a:0"] ++
    (List.range aligned_paths.length).flatMap (fun i => ["-map", Nat.repr (i + 1) ++ ":a:0"])

/-- The ProRes proxy re-encode arguments chosen for RAW camera formats. -/
def prores_video_args : List String :=
  ["-c:v", "prores_ks", "-profile:v", "3", "-pix_fmt", "yuv422p10le"]

/-- The direct stream-copy arguments chosen for non-RAW video. -/
def copy_video_args : List String := ["-c:v", "copy"]

/-- The trailing mux arguments: the single uniform PCM audio codec applied to
all audio tracks, `-shortest`, faststart flags, and the output path. -/
def mux_tail (output_path : String) : List String :=
  ["-c:a", DEFAULT_AUDIO_CODEC, "-shortest", "-movflags", "+faststart", output_path]

/-- The full ffmpeg argument list assembled by `process_clip_to_multitrack_mov`
(the mux plan), translated step by step from the source: inputs, unconditional
stream maps, the extension-dependent video codec branch, and the tail with the
uniform PCM audio codec. -/
def mux_args (video_path : String) (aligned_paths : List String)
    (output_path : String) : List String :=
  let args := ["-i", video_path] ++ aligned_paths.flatMap (fun ap => ["-i", ap])
  let args := args ++ ["-map", "0:v:0", "-map", "0:a:0"]
  let args := args ++
    (List.range aligned_paths.length).flatMap (fun i => ["-map", Nat.repr (i + 1) ++ ":a:0"])
  let ext := strToLower (splitextExt video_path)
  let args := args ++
    (if ext ∈ RAW_VIDEO_EXTS then
      ["-c:v", "prores_ks", "-profile:v", "3", "-pix_fmt", "yuv422p10le"]
    else ["-c:v", "copy"])
  args ++ ["-c:a", DEFAULT_AUDIO_CODEC, "-shortest", "-movflags", "+faststart", output_path]

/-- Clip-scoped error kinds raised while processing one clip (`RuntimeError`s
of the decode, sample-rate check and mux steps). -/
inductive SyncErr where
  | decodeError
  | rateMismatch
  | muxError
  deriving DecidableEq

/-- Job-level outcome kinds of the sync route: the two 400 responses, or a
clip error that escaped (no per-clip exception handling exists). -/
inductive JobErr where
  | noFiles
  | noValidClips
  | clipError (e : SyncErr)
  deriving DecidableEq

/-- Boolean prefix test on character lists (used to model which paths live
under a directory). -/
def charsPrefix : List Char → List Char → Bool
  | [], _ => true
  | _ :: _, [] => false
  | a :: as, b :: bs => a == b && charsPrefix as bs

/-- Result of the external-source loop of `process_clip_to_multitrack_mov`,
ignoring files: decode each external (`dec e` tells whether ffmpeg succeeds on
source `e`), check its sample rate (`srOf p` is the rate reported when loading
the extracted waveform of source `p`) against the reference's, and continue;
the first failure raises. -/
def ext_loop_result (dec : String → Bool) (srOf : String → ℕ) (video : String) :
    List String → Except SyncErr Unit
  | [] => .ok ()
  | e :: rest =>
    if dec e then
      if srOf video = srOf e then ext_loop_result dec srOf video rest
      else .error .rateMismatch
    else .error .decodeError

/-- Result of `process_clip_to_multitrack_mov`, ignoring files: decode the
reference video, run the external loop, then mux (`muxOf o` tells whether the
final ffmpeg invocation producing `o` succeeds). -/
def clip_result (dec : String → Bool) (srOf : String → ℕ) (muxOf : String → Bool)
    (video : String) (exts : List String) (out : String) : Except SyncErr Unit :=
  if dec video then
    match ext_loop_result dec srOf video exts with
    | .ok _ => if muxOf out then .ok () else .error .muxError
    | .error e => .error e
  else .error .decodeError

/-- The external-source loop with the scratch files it creates: for external
`i`, the extracted mono wav `ext_i.wav` and, after the (pure, non-failing)
offset estimation and alignment, the written wav `ext_i_aligned.wav`, both
inside `workdir`. -/
def ext_loop_fs (dec : String → Bool) (srOf : String → ℕ) (video workdir : String) :
    ℕ → List String → List String → Except SyncErr Unit × List String
  | _, [], fs => (.ok (), fs)
  | i, e :: rest, fs =>
    if dec e then
      let fs1 := fs ++ [workdir ++ "/ext_" ++ Nat.repr i ++ ".wav"]
      if srOf video = srOf e then
        let fs2 := fs1 ++ [workdir ++ "/ext_" ++ Nat.repr i ++ "_aligned.wav"]
        ext_loop_fs dec srOf video workdir (i + 1) rest fs2
      else (.error .rateMismatch, fs1)
    else (.error .decodeError, fs)

/-- `process_clip_to_multitrack_mov` at the level of results and files: the
clip's scratch waveforms (`cam.wav`, the per-external wavs) are created in the
fresh temporary directory `workdir`; on success the mux output `out` (outside
`workdir`) is created; and on every exit path, success or raise, the
`with tempfile.TemporaryDirectory()` context manager removes everything under
`workdir`. -/
def process_clip_fs (dec : String → Bool) (srOf : String → ℕ) (muxOf : String → Bool)
    (workdir video : String) (exts : List String) (out : String) (fs : List String) :
    Except SyncErr Unit × List String :=
  let step :=
    if dec video then
      let fs1 := fs ++ [workdir ++ "/cam.wav"]
      match ext_loop_fs dec srOf video workdir 0 exts fs1 with
      | (.ok _, fs2) => if muxOf out then (.ok (), fs2 ++ [out]) else (.error .muxError, fs2)
      | (.error e, fs2) => (.error e, fs2)
    else (.error .decodeError, fs)
  (step.1, step.2.filter (fun p => ! charsPrefix workdir.data p.data))

/-- The per-clip loop of `sync_route`: groups missing a video or an audio
source are silently skipped; the rest are processed in order, collecting
`(clip_key, output_path)` pairs. A clip error propagates out of the loop at
once — the route has no per-clip exception handling. `wd i` names the fresh
temporary work directory used for the `i`-th group. -/
def job_loop (dec : String → Bool) (srOf : String → ℕ) (muxOf : String → Bool)
    (wd : ℕ → String) (tmpdir : String) :
    ℕ → List (String × ClipGroup) → List (String × String) → List String →
      Except SyncErr (List (String × String)) × List String
  | _, [], outs, fs => (.ok outs, fs)
  | i, kc :: rest, outs, fs =>
    if kc.2.videos.isEmpty || kc.2.audios.isEmpty then
      job_loop dec srOf muxOf wd tmpdir (i + 1) rest outs fs
    else
      let out := tmpdir ++ "/" ++ kc.1 ++ "_synced.mov"
      match process_clip_fs dec srOf muxOf (wd i) (kc.2.videos.headD ("")) kc.2.audios out fs with
      | (.ok _, fs2) =>
        job_loop dec srOf muxOf wd tmpdir (i + 1) rest (outs ++ [(kc.1, out)]) fs2
      | (.error e, fs2) => (.error e, fs2)

/-- `sync_route` (anonymous-user path; persistent-storage copying for logged
in users is an excluded boundary): reject an empty upload list, save the
uploads into the fresh run directory `tmpdir`, group and process them, report
`noValidClips` when nothing was produced, and with more than one output also
create a zip archive in `tmpdir`. The route's `finally` block is `pass`, so
nothing in `tmpdir` is deleted before returning. -/
def sync_route_fs (dec : String → Bool) (srOf : String → ℕ) (muxOf : String → Bool)
    (wd : ℕ → String) (tmpdir : String) (files : List String) :
    Except JobErr (List (String × String)) × List String :=
  if files.isEmpty then (.error .noFiles, [])
  else
    let clips := classify_and_group_files tmpdir files
    let fs0 := (files.filter (fun f => ! (f == ""))).map (fun f => tmpdir ++ "/" ++ f)
    match job_loop dec srOf muxOf wd tmpdir 0 clips [] fs0 with
    | (.error e, fs) => (.error (.clipError e), fs)
    | (.ok outs, fs) =>
      if outs.isEmpty then (.error .noValidClips, fs)
      else if outs.length = 1 then (.ok outs, fs)
      else (.ok outs, fs ++ [tmpdir ++ "/synced_clips.zip"])

/-- The clip groups that `sync_route` actually processes: those with at least
one video and at least one audio source. -/
def validClips (clips : List (String × ClipGroup)) : List (String × ClipGroup) :=
  clips.filter (fun kc => (! kc.2.videos.isEmpty) && (! kc.2.audios.isEmpty))

/-- Arithmetic mean of a list of samples (`np.mean`; the empty list reads
`0/0 = 0`). Samples are exact reals idealizing float32. -/
noncomputable def mean (xs : List ℝ) : ℝ := xs.sum / xs.length

/-- Population standard deviation (`np.std`): the square root of the mean
squared deviation. -/
noncomputable def stdOf (xs : List ℝ) : ℝ :=
  Real.sqrt ((xs.map (fun x => (x - mean xs) ^ 2)).sum / xs.length)

/-- The normalization performed by `estimate_offset_seconds` on each input:
subtract the mean, then divide by the standard deviation of the centered
signal plus the `1e-9` epsilon floor. -/
noncomputable def normalizeWave (xs : List ℝ) : List ℝ :=
  let c := xs.map (fun x => x - mean xs)
  c.map (fun x => x / (stdOf c + 1e-9))

/-- Sample of `l` at integer index `z`, zero outside the range (to express
correlation windows). -/
def sampleZ (l : List ℝ) (z : ℤ) : ℝ :=
  if 0 ≤ z ∧ z < (l.length : ℤ) then l.getD z.toNat 0 else 0

/-- One entry of the full cross-correlation of `a` against `v` at lag `k`
(`scipy.signal.correlate(a, v, mode="full")`; the FFT method computes the
same values): the sum of `a[j] * v[j-k]` over the overlap. -/
noncomputable def corrAt (a v : List ℝ) (k : ℤ) : ℝ :=
  ∑ j ∈ Finset.range a.length,
    if 0 ≤ (j : ℤ) - k then a.getD j 0 * v.getD ((j : ℤ) - k).toNat 0 else 0

/-- The full cross-correlation sequence; index `i` holds the value at lag
`i - (len v - 1)`, the layout that `np.arange(-len(ext) + 1, len(cam))`
indexes. -/
noncomputable def correlateFull (a v : List ℝ) : List ℝ :=
  (List.range (a.length + v.length - 1)).map
    (fun (i : ℕ) => corrAt a v ((i : ℤ) - ((v.length : ℤ) - 1)))

/-- `np.argmax` scan: running index, best index and best value so far; a
later value replaces the best only when strictly greater, so the first
occurrence of the maximum wins. -/
noncomputable def argmaxFrom : ℕ → ℕ → ℝ → List ℝ → ℕ
  | _, bi, _, [] => bi
  | i, bi, bv, x :: xs =>
    if bv < x then argmaxFrom (i + 1) i x xs else argmaxFrom (i + 1) bi bv xs

/-- `np.argmax` on a list (0 on the empty list). -/
noncomputable def argmaxIdx : List ℝ → ℕ
  | [] => 0
  | x :: xs => argmaxFrom 1 0 x xs

/-- `estimate_offset_seconds(cam_audio, ext_audio, sample_rate)`: normalize
both inputs, cross-correlate in full mode, pick the lag of the (first)
maximum from `lags = np.arange(-len(ext) + 1, len(cam))`, and return
`-best_lag / sample_rate`. -/
noncomputable def estimate_offset_seconds (cam_audio ext_audio : List ℝ)
    (sample_rate : ℕ) : ℝ :=
  let cam := normalizeWave cam_audio
  let ext := normalizeWave ext_audio
  let corr := correlateFull cam ext
  let best_lag : ℤ := (-(ext.length : ℤ) + 1) + (argmaxIdx corr : ℤ)
  let offset_seconds : ℝ := -(best_lag : ℝ) / (sample_rate : ℝ)
  offset_seconds

/-- Shifted autocorrelation sum used to locate the correlation peak:
`∑ cam[j] * cam[j - m]` over the reference's indices, out-of-range samples
read as zero. -/
noncomputable def autocorrShift (cam : List ℝ) (m : ℤ) : ℝ :=
  ∑ j ∈ Finset.range cam.length, sampleZ cam (j : ℤ) * sampleZ cam ((j : ℤ) - m)

/-- Lookup of a numpy buffer by id in a buffer store (models python object
identity, for the in-place mutation claims). -/
def readBufOpt (st : List (ℕ × List ℝ)) (i : ℕ) : Option (List ℝ) :=
  match st with
  | [] => none
  | kv :: rest => if kv.1 = i then some kv.2 else readBufOpt rest i

/-- The data of buffer `i`, empty when absent. -/
def readBuf (st : List (ℕ × List ℝ)) (i : ℕ) : List ℝ := (readBufOpt st i).getD []

/-- Overwrite the data of buffer `i` in place. -/
def writeBuf (st : List (ℕ × List ℝ)) (i : ℕ) (data : List ℝ) : List (ℕ × List ℝ) :=
  st.map (fun kv => if kv.1 = i then (i, data) else kv)

/-- The ids present in the store. -/
def bufIds (st : List (ℕ × List ℝ)) : List ℕ := st.map Prod.fst

/-- A buffer id not yet present in the store. -/
def freshId (st : List (ℕ × List ℝ)) : ℕ := (bufIds st).foldr (fun a b => max a b) 0 + 1

/-- `arr.astype(np.float32)`: allocate a fresh buffer holding a copy of the
source buffer's data (numpy's default is `copy=True`), returning its id. -/
def astype (st : List (ℕ × List ℝ)) (src : ℕ) : List (ℕ × List ℝ) × ℕ :=
  (st ++ [(freshId st, readBuf st src)], freshId st)

/-- `arr -= arr.mean()`: in-place mean subtraction on buffer `i`. -/
noncomputable def isubMean (st : List (ℕ × List ℝ)) (i : ℕ) : List (ℕ × List ℝ) :=
  writeBuf st i ((readBuf st i).map (fun x => x - mean (readBuf st i)))

/-- `arr /= (arr.std() + 1e-9)`: in-place epsilon-floored normalization on
buffer `i`. -/
noncomputable def idivStd (st : List (ℕ × List ℝ)) (i : ℕ) : List (ℕ × List ℝ) :=
  writeBuf st i ((readBuf st i).map (fun x => x / (stdOf (readBuf st i) + 1e-9)))

/-- `estimate_offset_seconds` with explicit buffer state, mirroring the
source line by line: copy both inputs via `astype`, subtract each copy's mean
in place, divide each copy in place by its std plus epsilon, correlate the
copies, and return the offset together with the final store. -/
noncomputable def estimate_offset_seconds_state (st : List (ℕ × List ℝ))
    (camId extId : ℕ) (sample_rate : ℕ) : List (ℕ × List ℝ) × ℝ :=
  let s1 := astype st camId
  let s2 := astype s1.1 extId
  let cam := s1.2
  let ext := s2.2
  let st3 := isubMean s2.1 cam
  let st4 := isubMean st3 ext
  let st5 := idivStd st4 cam
  let st6 := idivStd st5 ext
  let camv := readBuf st6 cam
  let extv := readBuf st6 ext
  let corr := correlateFull camv extv
  let best_lag : ℤ := (-(extv.length : ℤ) + 1) + (argmaxIdx corr : ℤ)
  (st6, -(best_lag : ℝ) / (sample_rate : ℝ))

/-- C3: alignment length invariant — for every reference waveform, external
waveform, sample rate and offset, the aligned waveform has exactly the
reference length. -/
theorem build_aligned_external_length (cam ext : List ℚ) (sr : ℕ) (off : ℚ) :
    (build_aligned_external cam ext sr off).length = cam.length := by
  unfold build_aligned_external
  by_cases h0 : 0 ≤ off
  · simp only [if_pos h0]
    by_cases h1 : cam.length ≤ (pyRound (off * sr)).toNat
    · simp [h1]
    · simp only [if_neg h1]
      simp only [List.length_append, List.length_take, List.length_replicate]
      omega
  · simp only [if_neg h0]
    by_cases h1 : ext.length ≤ (pyRound (-off * sr)).toNat
    · simp only [if_pos h1, List.length_replicate]
    · simp only [if_neg h1]
      simp only [List.length_append, List.length_take, List.length_replicate,
        List.length_drop]
      omega

/-- C7: aligner all-zero edge cases — a positive offset whose rounded pad
reaches the reference length yields the all-zero waveform of reference
length, and a negative offset whose rounded lead reaches the external length
does likewise. -/
theorem build_aligned_external_all_zero (cam ext : List ℚ) (sr : ℕ) (off : ℚ) :
    (0 < off → cam.length ≤ (pyRound (off * sr)).toNat →
      build_aligned_external cam ext sr off = List.replicate cam.length 0) ∧
    (off < 0 → ext.length ≤ (pyRound (-off * sr)).toNat →
      build_aligned_external cam ext sr off = List.replicate cam.length 0) := by
  constructor
  · intro hpos hpad
    unfold build_aligned_external
    simp only [if_pos hpos.le, if_pos hpad]
  · intro hneg hlead
    unfold build_aligned_external
    simp only [if_neg (not_le.mpr hneg), if_pos hlead]

/-- Witness for C7 at concrete inputs: offset `2` s at 1 Hz pads past a
2-sample reference; offset `-2` s drops more than the 1-sample external. -/
theorem build_aligned_external_all_zero_witness :
    build_aligned_external [(1 : ℚ), 2] [3] 1 2 = List.replicate 2 0 ∧
    build_aligned_external [(1 : ℚ), 2] [3] 1 (-2) = List.replicate 2 0 := by
  constructor
  · exact (build_aligned_external_all_zero [(1 : ℚ), 2] [3] 1 2).1 (by norm_num)
      (by norm_num [pyRound])
  · exact (build_aligned_external_all_zero [(1 : ℚ), 2] [3] 1 (-2)).2 (by norm_num)
      (by norm_num [pyRound])

/-- C8: zero-offset alignment — aligning with offset `0` returns the external
waveform truncated to the reference length, zero-padded at the tail when it is
shorter, with no shift. -/
theorem build_aligned_external_zero_offset (cam ext : List ℚ) (sr : ℕ) :
    build_aligned_external cam ext sr 0 =
      ext.take cam.length ++ List.replicate (cam.length - ext.length) 0 := by
  have hr : pyRound (0 * (sr : ℚ)) = 0 := by norm_num [pyRound]
  unfold build_aligned_external
  simp only [if_pos (le_refl (0 : ℚ)), hr]
  by_cases h1 : cam.length ≤ (0 : ℤ).toNat
  · simp only [if_pos h1]
    have hn : cam.length = 0 := by omega
    simp [hn]
  · simp only [if_neg h1]
    rcases le_or_lt ext.length cam.length with hle | hlt
    · have hmin : min cam.length ((0 : ℤ).toNat + ext.length) = ext.length := by
        simp [Int.toNat]; omega
      rw [hmin]
      simp [List.take_of_length_le hle, List.take_of_length_le (le_refl ext.length)]
    · have hmin : min cam.length ((0 : ℤ).toNat + ext.length) = cam.length := by
        simp [Int.toNat]; omega
      rw [hmin]
      have h2 : cam.length - ext.length = 0 := by omega
      simp [h2]

/-- C4: mux plan codec branch — when the reference video's (lowercased)
extension is in the RAW-camera set, the plan re-encodes video to ProRes
profile 3 with the `yuv422p10le` pixel format; for any other extension it
stream-copies the video; in both cases the tail applies the single
uncompressed PCM codec `pcm_s16le` to every audio track. -/
theorem mux_args_codec_branch (v : String) (aps : List String) (out : String) :
    (strToLower (splitextExt v) ∈ RAW_VIDEO_EXTS →
      mux_args v aps out =
        mux_inputs v aps ++ mux_maps aps ++ prores_video_args ++ mux_tail out) ∧
    (strToLower (splitextExt v) ∉ RAW_VIDEO_EXTS →
      mux_args v aps out =
        mux_inputs v aps ++ mux_maps aps ++ copy_video_args ++ mux_tail out) := by
  constructor <;> intro h <;>
    simp [mux_args, mux_inputs, mux_maps, mux_tail, prores_video_args,
      copy_video_args, h, List.append_assoc]

/-- Witness for C4: a `.braw` reference selects the ProRes proxy path and an
`.mp4` reference selects stream copy, at concrete paths. -/
theorem mux_args_codec_branch_witness :
    (mux_args ("B002_cam.braw") ["b.wav"] ("out.mov") =
      mux_inputs ("B002_cam.braw") ["b.wav"] ++ mux_maps ["b.wav"] ++
        prores_video_args ++ mux_tail ("out.mov")) ∧
    (mux_args ("A001_cam.mp4") ["a.wav"] ("out2.mov") =
      mux_inputs ("A001_cam.mp4") ["a.wav"] ++ mux_maps ["a.wav"] ++
        copy_video_args ++ mux_tail ("out2.mov")) := by
  constructor
  · exact (mux_args_codec_branch ("B002_cam.braw") ["b.wav"] ("out.mov")).1 (by decide)
  · exact (mux_args_codec_branch ("A001_cam.mp4") ["a.wav"] ("out2.mov")).2 (by decide)

/-- The per-external mapping block of the plan has two arguments per source. -/
theorem range_bind_map_pair_length (n : ℕ) :
    ((List.range n).flatMap (fun j => ["-map", Nat.repr (j + 1) ++ ":a:0"])).length = 2 * n := by
  induction n with
  | zero => rfl
  | succ p ihp =>
    rw [List.range_succ, List.flatMap_append, List.length_append, ihp]
    simp
    omega

/-- The `i`-th mapping pair inside the per-external block of the plan. -/
theorem range_bind_map_pair_get (n i : ℕ) (h : i < n) :
    ((List.range n).flatMap (fun j => ["-map", Nat.repr (j + 1) ++ ":a:0"])).get? (2 * i) =
        some ("-map") ∧
    ((List.range n).flatMap (fun j => ["-map", Nat.repr (j + 1) ++ ":a:0"])).get? (2 * i + 1) =
        some (Nat.repr (i + 1) ++ ":a:0") := by
  induction n with
  | zero => omega
  | succ m ih =>
    rw [List.range_succ, List.flatMap_append]
    have hlen := range_bind_map_pair_length m
    rcases Nat.lt_or_ge i m with him | him
    · have h1 : 2 * i < 2 * m := by omega
      have h2 : 2 * i + 1 < 2 * m := by omega
      rw [List.get?_append (by omega), List.get?_append (by omega)]
      exact ih him
    · have hi : i = m := by omega
      subst hi
      rw [List.get?_append_right (by omega), List.get?_append_right (by omega), hlen]
      constructor
      · have : 2 * i - 2 * i = 0 := by omega
        rw [this]
        rfl
      · have : 2 * i + 1 - 2 * i = 1 := by omega
        rw [this]
        rfl

/-- C5 (amended): mux plan track mapping — the plan always maps the reference
video's first embedded audio stream (`0:a:0`) as the first output audio
track, unconditionally and without probing whether the stream exists, and then
maps input `i + 1`'s audio (the `i`-th external source, in original upload
order) as the following tracks. -/
theorem mux_args_track_mapping (v : String) (aps : List String) (out : String) :
    (mux_args v aps out =
      mux_inputs v aps ++ mux_maps aps ++
        (if strToLower (splitextExt v) ∈ RAW_VIDEO_EXTS then prores_video_args
          else copy_video_args) ++ mux_tail out) ∧
    (mux_maps aps).take 4 = ["-map", "0:v:0", "-map", "0:a:0"] ∧
    (∀ i, i < aps.length →
      (mux_maps aps).get? (4 + 2 * i) = some ("-map") ∧
      (mux_maps aps).get? (4 + 2 * i + 1) = some (Nat.repr (i + 1) ++ ":a:0")) := by
  refine ⟨?_, ?_, ?_⟩
  · by_cases h : strToLower (splitextExt v) ∈ RAW_VIDEO_EXTS
    · rw [if_pos h]
      exact (mux_args_codec_branch v aps out).1 h
    · rw [if_neg h]
      exact (mux_args_codec_branch v aps out).2 h
  · rfl
  · intro i hi
    have hpre : (["-map", "0:v:0", "-map", "0:a:0"] : List String).length = 4 := rfl
    constructor
    · rw [mux_maps, List.get?_append_right (by omega)]
      have : 4 + 2 * i - 4 = 2 * i := by omega
      rw [hpre] at *
      simpa [this] using (range_bind_map_pair_get aps.length i hi).1
    · rw [mux_maps, List.get?_append_right (by omega)]
      have : 4 + 2 * i + 1 - 4 = 2 * i + 1 := by omega
      simpa [this] using (range_bind_map_pair_get aps.length i hi).2

/-- Witness for C5 at a concrete two-external clip: the second external is
mapped as `2:a:0` right after the first. -/
theorem mux_args_track_mapping_witness :
    (mux_maps ["z.wav", "b.wav"]).get? (4 + 2 * 1) = some ("-map") ∧
    (mux_maps ["z.wav", "b.wav"]).get? (4 + 2 * 1 + 1) = some (Nat.repr 2 ++ ":a:0") :=
  (mux_args_track_mapping ("v.mp4") ["z.wav", "b.wav"] ("o.mov")).2.2 1 (by norm_num)

/-- C5 counterexample: the mux plan is a function of the file paths alone and
always maps stream `0:a:0` of the reference video; in particular for a
reference video file with no embedded audio track the plan still maps it
(argument positions 6 and 7 below), contradicting the claim that no track is
mapped in that case. -/
theorem mux_args_maps_reference_audio_unconditionally :
    mux_args ("A001_cam.mp4") ["A001_zoom.wav"] ("A001_synced.mov") =
      ["-i", "A001_cam.mp4", "-i", "A001_zoom.wav", "-map", "0:v:0", "-map", "0:a:0",
       "-map", "1:a:0", "-c:v", "copy", "-c:a", "pcm_s16le", "-shortest",
       "-movflags", "+faststart", "A001_synced.mov"] := by
  rfl

/-- Lookup in an association list ignores an appended tail when the key is
already bound. -/
theorem alistFind_append_some (k : String) (l₁ l₂ : List (String × ClipGroup))
    (h : (alistFind k l₁).isSome) : alistFind k (l₁ ++ l₂) = alistFind k l₁ := by
  induction l₁ with
  | nil => simp [alistFind] at h
  | cons kv rest ih =>
    by_cases hk : kv.1 = k
    · simp [alistFind, hk]
    · simp only [alistFind, if_neg hk] at h ⊢
      exact ih h

/-- Lookup in an association list falls through to an appended tail when the
key is unbound in the front. -/
theorem alistFind_append_none (k : String) (l₁ l₂ : List (String × ClipGroup))
    (h : alistFind k l₁ = none) : alistFind k (l₁ ++ l₂) = alistFind k l₂ := by
  induction l₁ with
  | nil => simp
  | cons kv rest ih =>
    by_cases hk : kv.1 = k
    · simp [alistFind, hk] at h
    · simp only [alistFind, if_neg hk] at h ⊢
      exact ih h

/-- A key has a binding exactly when it occurs among the mapping's keys. -/
theorem alistFind_isSome_iff (k : String) (l : List (String × ClipGroup)) :
    (alistFind k l).isSome ↔ k ∈ groupKeys l := by
  induction l with
  | nil => simp [alistFind, groupKeys]
  | cons kv rest ih =>
    by_cases hk : kv.1 = k
    · subst hk
      simp [alistFind, groupKeys]
    · simp only [alistFind, if_neg hk]
      rw [ih]
      unfold groupKeys
      simp only [List.map_cons, List.mem_cons]
      constructor
      · exact fun h => Or.inr h
      · rintro (h | h)
        · exact absurd h.symm hk
        · exact h

/-- `updateEntry` transforms exactly the binding of the updated key. -/
theorem alistFind_updateEntry (l : List (String × ClipGroup)) (key k : String)
    (f : ClipGroup → ClipGroup) :
    alistFind k (updateEntry l key f) =
      if k = key then (alistFind k l).map f else alistFind k l := by
  induction l with
  | nil => simp [alistFind, updateEntry]
  | cons kv rest ih =>
    simp only [updateEntry, List.map_cons] at *
    by_cases hkey : kv.1 = key
    · by_cases hk : kv.1 = k
      · have hkk : k = key := hk.symm.trans hkey
        simp [alistFind, hk, hkk]
      · have hkk : ¬ k = key := fun h => hk (hkey.trans h.symm)
        have hk2 : ¬ key = k := fun h => hk (hkey.trans h)
        simp [alistFind, hkey, hk, hk2, hkk, ih]
    · by_cases hk : kv.1 = k
      · have hkk : ¬ k = key := fun h => hkey (hk.trans h)
        simp [alistFind, hkey, hk, hkk]
      · simp [alistFind, hkey, hk, ih]

/-- Content read at the updated key after `updateEntry`, when bound. -/
theorem groupContent_updateEntry_self (l : List (String × ClipGroup)) (key : String)
    (f : ClipGroup → ClipGroup) (h : (alistFind key l).isSome) :
    groupContent (updateEntry l key f) key = f (groupContent l key) := by
  unfold groupContent
  rw [alistFind_updateEntry, if_pos rfl]
  rcases Option.isSome_iff_exists.mp h with ⟨c, hc⟩
  rw [hc]
  rfl

/-- Content read at any other key is untouched by `updateEntry`. -/
theorem groupContent_updateEntry_other (l : List (String × ClipGroup)) (key k : String)
    (f : ClipGroup → ClipGroup) (h : ¬ k = key) :
    groupContent (updateEntry l key f) k = groupContent l k := by
  unfold groupContent
  rw [alistFind_updateEntry, if_neg h]

/-- `updateEntry` leaves the key sequence unchanged. -/
theorem groupKeys_updateEntry (l : List (String × ClipGroup)) (key : String)
    (f : ClipGroup → ClipGroup) : groupKeys (updateEntry l key f) = groupKeys l := by
  unfold groupKeys updateEntry
  rw [List.map_map]
  apply List.map_congr_left
  intro kv _
  by_cases h : kv.1 = key <;> simp [h]

/-- The `setdefault` step of the grouping loop never changes the content read
at any key (a freshly created entry holds the empty group, which is also what
a missing key reads as). -/
theorem groupContent_setdefault (S : List (String × ClipGroup)) (key k : String) :
    groupContent (if (alistFind key S).isSome then S else S ++ [(key, ⟨[], []⟩)]) k =
      groupContent S k := by
  by_cases h : (alistFind key S).isSome
  · rw [if_pos h]
  · rw [if_neg h]
    unfold groupContent
    by_cases hks : (alistFind k S).isSome
    · rw [alistFind_append_some k S _ hks]
    · have hkn : alistFind k S = none := Option.not_isSome_iff_eq_none.mp hks
      rw [alistFind_append_none k S _ hkn, hkn]
      by_cases hkk : key = k
      · simp [alistFind, hkk]
      · simp [alistFind, hkk]

/-- After the `setdefault` step the key is always bound. -/
theorem alistFind_setdefault_isSome (S : List (String × ClipGroup)) (key : String) :
    (alistFind key (if (alistFind key S).isSome then S else S ++ [(key, ⟨[], []⟩)])).isSome := by
  by_cases h : (alistFind key S).isSome
  · rw [if_pos h]; exact h
  · rw [if_neg h, alistFind_append_none key S _ (Option.not_isSome_iff_eq_none.mp h)]
    simp [alistFind]

/-- Key membership after the `setdefault` step. -/
theorem mem_groupKeys_setdefault (S : List (String × ClipGroup)) (key k : String) :
    k ∈ groupKeys (if (alistFind key S).isSome then S else S ++ [(key, ⟨[], []⟩)]) ↔
      (k ∈ groupKeys S ∨ k = key) := by
  by_cases h : (alistFind key S).isSome
  · rw [if_pos h]
    constructor
    · exact fun hm => Or.inl hm
    · rintro (hm | rfl)
      · exact hm
      · exact (alistFind_isSome_iff k S).mp h
  · rw [if_neg h]
    unfold groupKeys
    simp

/-- Effect of one grouping-loop iteration on the content read at a key: only
the processed file's own clip key can change, and only when the extension is
recognized; the file's saved path is appended to the videos or audios. -/
theorem groupContent_addFile (t : String) (S : List (String × ClipGroup)) (g k : String) :
    groupContent (addFile t S g) k =
      if g ≠ "" ∧ k = clipKeyOf g then
        (if strToLower (splitextExt g) ∈ VIDEO_EXTS then
          ⟨(groupContent S k).videos ++ [t ++ "/" ++ g], (groupContent S k).audios⟩
        else if strToLower (splitextExt g) ∈ AUDIO_EXTS then
          ⟨(groupContent S k).videos, (groupContent S k).audios ++ [t ++ "/" ++ g]⟩
        else groupContent S k)
      else groupContent S k := by
  by_cases hg : g = ""
  · simp [addFile, hg]
  · simp only [addFile, if_neg hg]
    by_cases hk : k = clipKeyOf g
    · subst hk
      have hsome := alistFind_setdefault_isSome S (clipKeyOf g)
      by_cases hv : strToLower (splitextExt g) ∈ VIDEO_EXTS
      · rw [if_pos hv, groupContent_updateEntry_self _ _ _ hsome, groupContent_setdefault,
          if_pos (And.intro hg rfl), if_pos hv]
      · by_cases ha : strToLower (splitextExt g) ∈ AUDIO_EXTS
        · rw [if_neg hv, if_pos ha, groupContent_updateEntry_self _ _ _ hsome,
            groupContent_setdefault, if_pos (And.intro hg rfl), if_neg hv, if_pos ha]
        · rw [if_neg hv, if_neg ha, groupContent_setdefault,
            if_pos (And.intro hg rfl), if_neg hv, if_neg ha]
    · rw [if_neg (show ¬(g ≠ "" ∧ k = clipKeyOf g) from fun h => hk h.2)]
      by_cases hv : strToLower (splitextExt g) ∈ VIDEO_EXTS
      · rw [if_pos hv, groupContent_updateEntry_other _ _ _ _ hk, groupContent_setdefault]
      · by_cases ha : strToLower (splitextExt g) ∈ AUDIO_EXTS
        · rw [if_neg hv, if_pos ha, groupContent_updateEntry_other _ _ _ _ hk,
            groupContent_setdefault]
        · rw [if_neg hv, if_neg ha, groupContent_setdefault]

/-- Effect of one grouping-loop iteration on key membership: the processed
file's clip key is added (whatever its extension), nothing else. -/
theorem mem_groupKeys_addFile (t : String) (S : List (String × ClipGroup)) (g k : String) :
    k ∈ groupKeys (addFile t S g) ↔
      (k ∈ groupKeys S ∨ (g ≠ "" ∧ k = clipKeyOf g)) := by
  by_cases hg : g = ""
  · simp [addFile, hg]
  · simp only [addFile, if_neg hg]
    have hmem := mem_groupKeys_setdefault S (clipKeyOf g) k
    by_cases hv : strToLower (splitextExt g) ∈ VIDEO_EXTS
    · rw [if_pos hv, groupKeys_updateEntry, hmem]
      tauto
    · rw [if_neg hv]
      by_cases ha : strToLower (splitextExt g) ∈ AUDIO_EXTS
      · rw [if_pos ha, groupKeys_updateEntry, hmem]
        tauto
      · rw [if_neg ha, hmem]
        tauto

/-- Folding the grouping loop preserves the relation "same content at every
key, and same keys except for one extra key `kf`". -/
theorem classify_fold_invariant (t kf : String) (l : List String) :
    ∀ (S₁ S₂ : List (String × ClipGroup)),
      (∀ k, groupContent S₁ k = groupContent S₂ k) →
      (∀ k, k ∈ groupKeys S₁ ↔ (k ∈ groupKeys S₂ ∨ k = kf)) →
      (∀ k, groupContent (l.foldl (addFile t) S₁) k =
        groupContent (l.foldl (addFile t) S₂) k) ∧
      (∀ k, k ∈ groupKeys (l.foldl (addFile t) S₁) ↔
        (k ∈ groupKeys (l.foldl (addFile t) S₂) ∨ k = kf)) := by
  induction l with
  | nil => exact fun S₁ S₂ hc hk => ⟨hc, hk⟩
  | cons g rest ih =>
    intro S₁ S₂ hc hk
    simp only [List.foldl_cons]
    apply ih
    · intro k
      rw [groupContent_addFile, groupContent_addFile, hc k]
    · intro k
      rw [mem_groupKeys_addFile, mem_groupKeys_addFile, hk k]
      tauto

/-- C6 (amended): a file whose extension is in neither extension set
contributes no path to any clip's videos or audios — the mapping produced
with the file reads identically (at every key) to the mapping produced
without it — but, because the grouping loop creates the clip entry before
checking the extension, the file's clip key itself is added to the mapping
(bound to the empty group) even when unrecognized. -/
theorem classify_unrecognized_file (tmpdir : String) (l₁ l₂ : List String) (f : String)
    (hf : f ≠ "") (hv : strToLower (splitextExt f) ∉ VIDEO_EXTS)
    (ha : strToLower (splitextExt f) ∉ AUDIO_EXTS) :
    (∀ k, groupContent (classify_and_group_files tmpdir (l₁ ++ f :: l₂)) k =
        groupContent (classify_and_group_files tmpdir (l₁ ++ l₂)) k) ∧
    (∀ k, k ∈ groupKeys (classify_and_group_files tmpdir (l₁ ++ f :: l₂)) ↔
        (k ∈ groupKeys (classify_and_group_files tmpdir (l₁ ++ l₂)) ∨ k = clipKeyOf f)) := by
  have hsplit1 : classify_and_group_files tmpdir (l₁ ++ f :: l₂) =
      l₂.foldl (addFile tmpdir) (addFile tmpdir (classify_and_group_files tmpdir l₁) f) := by
    unfold classify_and_group_files
    rw [List.foldl_append]
    rfl
  have hsplit2 : classify_and_group_files tmpdir (l₁ ++ l₂) =
      l₂.foldl (addFile tmpdir) (classify_and_group_files tmpdir l₁) := by
    unfold classify_and_group_files
    rw [List.foldl_append]
  rw [hsplit1, hsplit2]
  apply classify_fold_invariant
  · intro k
    rw [groupContent_addFile]
    by_cases hk : k = clipKeyOf f
    · rw [if_pos ⟨hf, hk⟩, if_neg hv, if_neg ha]
    · rw [if_neg (fun h => hk h.2)]
  · intro k
    rw [mem_groupKeys_addFile]
    constructor
    · rintro (h | h)
      · exact Or.inl h
      · exact Or.inr h.2
    · rintro (h | h)
      · exact Or.inl h
      · exact Or.inr ⟨hf, h⟩

/-- Witness for C6 at concrete inputs: adding the unrecognized `A_doc.txt`
to a list containing `A_cam.mp4` leaves the content read at key `A`
unchanged. -/
theorem classify_unrecognized_file_witness :
    groupContent (classify_and_group_files ("/t") (["A_cam.mp4"] ++ ("A_doc.txt") :: [])) ("A") =
      groupContent (classify_and_group_files ("/t") (["A_cam.mp4"] ++ [])) ("A") :=
  (classify_unrecognized_file ("/t") ["A_cam.mp4"] [] ("A_doc.txt") (by decide)
    (by decide) (by decide)).1 ("A")

/-- C6 counterexample: an unrecognized file is not dropped without trace — at
a concrete input the mapping produced with only the unrecognized `A_doc.txt`
holds an entry for key `A` bound to the empty group, while the mapping for the
empty list is empty, so the two mappings are not identical. -/
theorem classify_unrecognized_not_identical :
    classify_and_group_files ("/t") ["A_doc.txt"] = [("A", ⟨[], []⟩)] ∧
    classify_and_group_files ("/t") ([] : List String) = [] ∧
    classify_and_group_files ("/t") ["A_doc.txt"] ≠ classify_and_group_files ("/t") [] := by
  refine ⟨by decide, rfl, by decide⟩

/-- The result component of the external-source loop does not depend on the
file state or the scratch-name index. -/
theorem ext_loop_fs_result (dec : String → Bool) (srOf : String → ℕ)
    (video workdir : String) (exts : List String) :
    ∀ (i : ℕ) (fs : List String),
      (ext_loop_fs dec srOf video workdir i exts fs).1 =
        ext_loop_result dec srOf video exts := by
  induction exts with
  | nil =>
    intro i fs
    rfl
  | cons e rest ih =>
    intro i fs
    simp only [ext_loop_fs, ext_loop_result]
    by_cases hd : dec e = true
    · simp only [if_pos hd]
      by_cases hs : srOf video = srOf e
      · simp only [if_pos hs]
        exact ih _ _
      · simp only [if_neg hs]
    · simp only [if_neg hd]

/-- The result component of clip processing equals the file-free clip
result. -/
theorem process_clip_fs_result (dec : String → Bool) (srOf : String → ℕ)
    (muxOf : String → Bool) (workdir video out : String) (exts : List String)
    (fs : List String) :
    (process_clip_fs dec srOf muxOf workdir video exts out fs).1 =
      clip_result dec srOf muxOf video exts out := by
  simp only [process_clip_fs, clip_result]
  by_cases hd : dec video = true
  · simp only [if_pos hd]
    have h := ext_loop_fs_result dec srOf video workdir exts 0 (fs ++ [workdir ++ "/cam.wav"])
    rcases hE : ext_loop_fs dec srOf video workdir 0 exts (fs ++ [workdir ++ "/cam.wav"])
      with ⟨r, fs2⟩
    rw [hE] at h
    simp only at h
    rw [← h]
    cases r with
    | ok u =>
      by_cases hm : muxOf out = true
      · simp [hm]
      · simp [hm]
    | error e => simp
  · simp only [if_neg hd]

/-- `job_loop` succeeds exactly when every remaining valid clip processes
successfully; it then returns the accumulated outputs extended by one
`(key, output_path)` pair per valid clip, in order. -/
theorem job_loop_ok_iff (dec : String → Bool) (srOf : String → ℕ) (muxOf : String → Bool)
    (wd : ℕ → String) (tmpdir : String) :
    ∀ (clips : List (String × ClipGroup)) (i : ℕ) (outs0 : List (String × String))
      (fs : List String) (res : List (String × String)),
      (job_loop dec srOf muxOf wd tmpdir i clips outs0 fs).1 = .ok res ↔
        ((∀ kc ∈ validClips clips,
            clip_result dec srOf muxOf (kc.2.videos.headD ("")) kc.2.audios
              (tmpdir ++ "/" ++ kc.1 ++ "_synced.mov") = .ok ()) ∧
          res = outs0 ++ (validClips clips).map
            (fun kc => (kc.1, tmpdir ++ "/" ++ kc.1 ++ "_synced.mov"))) := by
  intro clips
  induction clips with
  | nil =>
    intro i outs0 fs res
    simp [job_loop, validClips, eq_comm]
  | cons kc rest ih =>
    intro i outs0 fs res
    simp only [job_loop]
    by_cases hskip : (kc.2.videos.isEmpty || kc.2.audios.isEmpty) = true
    · rw [if_pos hskip]
      have hval : validClips (kc :: rest) = validClips rest := by
        unfold validClips
        rw [List.filter_cons_of_neg]
        cases hv : kc.2.videos.isEmpty <;> cases ha : kc.2.audios.isEmpty <;>
          simp [hv, ha] <;> simp [hv, ha] at hskip
      rw [hval, ih]
    · rw [if_neg hskip]
      have hval : validClips (kc :: rest) = kc :: validClips rest := by
        unfold validClips
        rw [List.filter_cons_of_pos]
        cases hv : kc.2.videos.isEmpty <;> cases ha : kc.2.audios.isEmpty <;>
          simp [hv, ha] <;> simp [hv, ha] at hskip
      rcases hp : process_clip_fs dec srOf muxOf (wd i) (kc.2.videos.headD ("")) kc.2.audios
          (tmpdir ++ "/" ++ kc.1 ++ "_synced.mov") fs with ⟨r, fs2⟩
      have hres := process_clip_fs_result dec srOf muxOf (wd i) (kc.2.videos.headD (""))
          (tmpdir ++ "/" ++ kc.1 ++ "_synced.mov") kc.2.audios fs
      rw [hp] at hres
      simp only at hres
      cases r with
      | ok u =>
        cases u
        rw [ih, hval]
        constructor
        · rintro ⟨hall, hres2⟩
          refine ⟨?_, ?_⟩
          · intro kc2 hmem
            rcases List.mem_cons.mp hmem with h1 | h1
            · subst h1
              exact hres.symm
            · exact hall kc2 h1
          · rw [hres2]
            simp [List.append_assoc]
        · rintro ⟨hall, hres2⟩
          refine ⟨fun kc2 h1 => hall kc2 (List.mem_cons_of_mem _ h1), ?_⟩
          rw [hres2]
          simp [List.append_assoc]
      | error e =>
        simp only []
        constructor
        · intro hcontra
          simp at hcontra
        · rintro ⟨hall, _⟩
          have hk := hall kc (by rw [hval]; exact List.mem_cons_self _ _)
          rw [← hres] at hk
          simp at hk

/-- C1 (amended): there is no per-clip failure isolation in the route — the
job succeeds exactly when at least one valid clip exists and **every** valid
clip processes without error (its outputs are then those of all valid clips in
upload order); contrapositively, a clip-scoped error (decode failure,
sample-rate mismatch or mux failure) in any valid clip aborts the whole job. -/
theorem sync_route_success_iff (dec : String → Bool) (srOf : String → ℕ)
    (muxOf : String → Bool) (wd : ℕ → String) (tmpdir : String) (files : List String)
    (hf : files ≠ []) (res : List (String × String)) :
    (sync_route_fs dec srOf muxOf wd tmpdir files).1 = .ok res ↔
      (validClips (classify_and_group_files tmpdir files) ≠ [] ∧
       (∀ kc ∈ validClips (classify_and_group_files tmpdir files),
          clip_result dec srOf muxOf (kc.2.videos.headD ("")) kc.2.audios
            (tmpdir ++ "/" ++ kc.1 ++ "_synced.mov") = .ok ()) ∧
       res = (validClips (classify_and_group_files tmpdir files)).map
          (fun kc => (kc.1, tmpdir ++ "/" ++ kc.1 ++ "_synced.mov"))) := by
  have hfe : files.isEmpty = false := by
    cases files with
    | nil => exact absurd rfl hf
    | cons a l => rfl
  simp only [sync_route_fs, hfe, Bool.false_eq_true, if_false]
  rcases hj : job_loop dec srOf muxOf wd tmpdir 0 (classify_and_group_files tmpdir files) []
      ((files.filter (fun f => ! (f == ""))).map (fun f => tmpdir ++ "/" ++ f))
    with ⟨r, fs⟩
  cases r with
  | error e =>
    constructor
    · intro hcontra
      simp at hcontra
    · rintro ⟨hne, hall, hres⟩
      have hok := (job_loop_ok_iff dec srOf muxOf wd tmpdir
          (classify_and_group_files tmpdir files) 0 []
          ((files.filter (fun f => ! (f == ""))).map (fun f => tmpdir ++ "/" ++ f))
          ((validClips (classify_and_group_files tmpdir files)).map
            (fun kc => (kc.1, tmpdir ++ "/" ++ kc.1 ++ "_synced.mov")))).mpr
        ⟨hall, by simp⟩
      rw [hj] at hok
      simp at hok
  | ok outs =>
    have h1 : (job_loop dec srOf muxOf wd tmpdir 0 (classify_and_group_files tmpdir files) []
        ((files.filter (fun f => ! (f == ""))).map (fun f => tmpdir ++ "/" ++ f))).1 =
        .ok outs := by rw [hj]
    obtain ⟨hall, houts⟩ := (job_loop_ok_iff dec srOf muxOf wd tmpdir
        (classify_and_group_files tmpdir files) 0 []
        ((files.filter (fun f => ! (f == ""))).map (fun f => tmpdir ++ "/" ++ f)) outs).mp h1
    simp only [List.nil_append] at houts
    simp only []
    by_cases hne : outs.isEmpty = true
    · rw [if_pos hne]
      have houtsnil : outs = [] := List.isEmpty_iff.mp hne
      constructor
      · intro hc
        simp at hc
      · rintro ⟨hvne, _, _⟩
        rw [houtsnil] at houts
        exact absurd (List.map_eq_nil_iff.mp houts.symm) hvne
    · rw [if_neg hne]
      have hvne : validClips (classify_and_group_files tmpdir files) ≠ [] := by
        intro h0
        rw [h0] at houts
        simp at houts
        rw [houts] at hne
        exact hne rfl
      have hfst : (if outs.length = 1 then
            ((.ok outs : Except JobErr (List (String × String))), fs)
          else (.ok outs, fs ++ [tmpdir ++ "/synced_clips.zip"])).1 = .ok outs := by
        by_cases hl : outs.length = 1 <;> simp [hl]
      rw [hfst]
      constructor
      · intro h
        simp only [Except.ok.injEq] at h
        exact ⟨hvne, hall, by rw [← h, houts]⟩
      · rintro ⟨_, _, hres⟩
        rw [hres, ← houts]

/-- C1 counterexample: a job with two valid clips (`A`, `B`) where only clip
`A`'s video fails to decode. The claim says clip `B` is still processed and
the job succeeds with `B`'s output; in fact the decode error escapes the loop
and the whole job fails, even though clip `B` alone would have processed
successfully (second conjunct). -/
theorem sync_route_no_failure_isolation :
    (sync_route_fs (fun p => p != "/t/A_cam.mp4") (fun _ => 48000) (fun _ => true)
        (fun i => "/wk" ++ Nat.repr i) ("/t")
        ["A_cam.mp4", "A_zoom.wav", "B_cam.mp4", "B_zoom.wav"]).1 =
      .error (.clipError .decodeError) ∧
    clip_result (fun p => p != "/t/A_cam.mp4") (fun _ => 48000) (fun _ => true)
        ("/t/B_cam.mp4") ["/t/B_zoom.wav"] ("/t/B_synced.mov") = .ok () := by
  exact ⟨rfl, rfl⟩

/-- Witness for C1's amended theorem: an all-successful single-clip job
returns that clip's output. -/
theorem sync_route_success_iff_witness :
    (sync_route_fs (fun _ => true) (fun _ => 48000) (fun _ => true)
        (fun i => "/wk" ++ Nat.repr i) ("/t") ["A_cam.mp4", "A_zoom.wav"]).1 =
      .ok [("A", "/t/A_synced.mov")] :=
  (sync_route_success_iff (fun _ => true) (fun _ => 48000) (fun _ => true)
      (fun i => "/wk" ++ Nat.repr i) ("/t") ["A_cam.mp4", "A_zoom.wav"]
      (by decide) [("A", "/t/A_synced.mov")]).mpr
    (by refine ⟨by decide, ?_, by decide⟩
        intro kc hkc
        fin_cases hkc <;> rfl)

/-- A character list is a prefix of itself followed by anything. -/
theorem charsPrefix_append_self (l t : List Char) : charsPrefix l (l ++ t) = true := by
  induction l with
  | nil => rfl
  | cons a as ih => simp [charsPrefix, ih]

/-- A `charsPrefix` of a list lets it decompose as prefix plus remainder. -/
theorem eq_append_of_charsPrefix {l s : List Char} (h : charsPrefix l s = true) :
    ∃ t, s = l ++ t := by
  induction l generalizing s with
  | nil => exact ⟨s, rfl⟩
  | cons a as ih =>
    cases s with
    | nil => simp [charsPrefix] at h
    | cons b bs =>
      simp only [charsPrefix, Bool.and_eq_true, beq_iff_eq] at h
      obtain ⟨rfl, h2⟩ := h
      obtain ⟨t, rfl⟩ := ih h2
      exact ⟨t, rfl⟩

/-- A string prefixes its own one-step extension. -/
theorem charsPrefix_append_one (a x : String) :
    charsPrefix a.data (a ++ x).data = true := by
  rw [String.data_append]
  exact charsPrefix_append_self _ _

/-- A string prefixes its own two-step extension. -/
theorem charsPrefix_append_two (a x y : String) :
    charsPrefix a.data ((a ++ x) ++ y).data = true := by
  rw [String.append_assoc]
  exact charsPrefix_append_one a _

/-- A string prefixes its own three-step extension. -/
theorem charsPrefix_append_three (a x y z : String) :
    charsPrefix a.data (((a ++ x) ++ y) ++ z).data = true := by
  rw [String.append_assoc, String.append_assoc]
  exact charsPrefix_append_one a _

/-- Files present after the external-source loop: either already present, or
scratch files under the clip's work directory. -/
theorem ext_loop_fs_mem (dec : String → Bool) (srOf : String → ℕ)
    (video workdir : String) :
    ∀ (exts : List String) (i : ℕ) (fs : List String) (p : String),
      p ∈ (ext_loop_fs dec srOf video workdir i exts fs).2 →
        p ∈ fs ∨ charsPrefix workdir.data p.data = true := by
  intro exts
  induction exts with
  | nil =>
    intro i fs p hp
    exact Or.inl hp
  | cons e rest ih =>
    intro i fs p hp
    simp only [ext_loop_fs] at hp
    by_cases hd : dec e = true
    · rw [if_pos hd] at hp
      by_cases hs : srOf video = srOf e
      · rw [if_pos hs] at hp
        rcases ih _ _ _ hp with h | h
        · rcases List.mem_append.mp h with h1 | h1
          · rcases List.mem_append.mp h1 with h2 | h2
            · exact Or.inl h2
            · right
              rw [List.mem_singleton.mp h2]
              exact charsPrefix_append_three workdir _ _ _
          · right
            rw [List.mem_singleton.mp h1]
            exact charsPrefix_append_three workdir _ _ _
        · exact Or.inr h
      · rw [if_neg hs] at hp
        rcases List.mem_append.mp hp with h1 | h1
        · exact Or.inl h1
        · right
          rw [List.mem_singleton.mp h1]
          exact charsPrefix_append_three workdir _ _ _
    · rw [if_neg hd] at hp
      exact Or.inl hp

/-- Files present after one clip is processed: either already present or the
clip's mux output; and never a file under the clip's work directory — the
temporary-directory cleanup removes all of those on every exit path. -/
theorem process_clip_fs_mem (dec : String → Bool) (srOf : String → ℕ)
    (muxOf : String → Bool) (workdir video out : String) (exts : List String)
    (fs : List String) (p : String)
    (hp : p ∈ (process_clip_fs dec srOf muxOf workdir video exts out fs).2) :
    (p ∈ fs ∨ p = out) ∧ charsPrefix workdir.data p.data = false := by
  simp only [process_clip_fs] at hp
  rw [List.mem_filter] at hp
  obtain ⟨hmem, hpred⟩ := hp
  have hnpref : charsPrefix workdir.data p.data = false := by
    cases h : charsPrefix workdir.data p.data
    · rfl
    · rw [h] at hpred
      simp at hpred
  refine ⟨?_, hnpref⟩
  by_cases hd : dec video = true
  · rw [if_pos hd] at hmem
    rcases hE : ext_loop_fs dec srOf video workdir 0 exts (fs ++ [workdir ++ "/cam.wav"])
      with ⟨r, fs2⟩
    rw [hE] at hmem
    have hfs2 : ∀ q, q ∈ fs2 → q ∈ fs ∨ charsPrefix workdir.data q.data = true := by
      intro q hq
      have := ext_loop_fs_mem dec srOf video workdir exts 0
        (fs ++ [workdir ++ "/cam.wav"]) q (by rw [hE]; exact hq)
      rcases this with h | h
      · rcases List.mem_append.mp h with h1 | h1
        · exact Or.inl h1
        · right
          rw [List.mem_singleton.mp h1]
          exact charsPrefix_append_one workdir _
      · exact Or.inr h
    cases r with
    | ok u =>
      simp only at hmem
      by_cases hm : muxOf out = true
      · rw [if_pos hm] at hmem
        simp only at hmem
        rcases List.mem_append.mp hmem with h1 | h1
        · rcases hfs2 p h1 with h2 | h2
          · exact Or.inl h2
          · rw [h2] at hnpref
            cases hnpref
        · exact Or.inr (List.mem_singleton.mp h1)
      · rw [if_neg hm] at hmem
        simp only at hmem
        rcases hfs2 p hmem with h2 | h2
        · exact Or.inl h2
        · rw [h2] at hnpref
          cases hnpref
    | error e =>
      simp only at hmem
      rcases hfs2 p hmem with h2 | h2
      · exact Or.inl h2
      · rw [h2] at hnpref
        cases hnpref
  · rw [if_neg hd] at hmem
    exact Or.inl hmem

/-- Files present after the clip loop: either already present or produced
outputs, all of which live in the run directory. -/
theorem job_loop_fs_mem (dec : String → Bool) (srOf : String → ℕ) (muxOf : String → Bool)
    (wd : ℕ → String) (tmpdir : String) :
    ∀ (clips : List (String × ClipGroup)) (i : ℕ) (outs : List (String × String))
      (fs : List String) (p : String),
      p ∈ (job_loop dec srOf muxOf wd tmpdir i clips outs fs).2 →
        p ∈ fs ∨ charsPrefix tmpdir.data p.data = true := by
  intro clips
  induction clips with
  | nil =>
    intro i outs fs p hp
    exact Or.inl hp
  | cons kc rest ih =>
    intro i outs fs p hp
    simp only [job_loop] at hp
    by_cases hskip : (kc.2.videos.isEmpty || kc.2.audios.isEmpty) = true
    · rw [if_pos hskip] at hp
      exact ih _ _ _ _ hp
    · rw [if_neg hskip] at hp
      rcases hP : process_clip_fs dec srOf muxOf (wd i) (kc.2.videos.headD ("")) kc.2.audios
          (tmpdir ++ "/" ++ kc.1 ++ "_synced.mov") fs with ⟨r, fs2⟩
      rw [hP] at hp
      have hstep : ∀ q, q ∈ fs2 → q ∈ fs ∨ charsPrefix tmpdir.data q.data = true := by
        intro q hq
        have := process_clip_fs_mem dec srOf muxOf (wd i) (kc.2.videos.headD (""))
          (tmpdir ++ "/" ++ kc.1 ++ "_synced.mov") kc.2.audios fs q (by rw [hP]; exact hq)
        rcases this.1 with h1 | h1
        · exact Or.inl h1
        · right
          rw [h1]
          exact charsPrefix_append_three tmpdir _ _ _
      cases r with
      | ok u =>
        simp only at hp
        rcases ih _ _ _ _ hp with h1 | h1
        · exact hstep p h1
        · exact Or.inr h1
      | error e =>
        simp only at hp
        exact hstep p hp

/-- C9 (amended): scratch cleanup is only per-clip — the clip-scoped
temporary directory with the extracted and aligned waveforms is removed on
every exit path (success or raise), but the route's `finally` block deletes
nothing else: every file still present when the job returns lies in the run
directory `tmpdir` (uploaded copies, produced outputs, the optional zip), and
none lies under any clip work directory. -/
theorem sync_route_leftover_files (dec : String → Bool) (srOf : String → ℕ)
    (muxOf : String → Bool) (wd : ℕ → String) (tmpdir : String) (files : List String)
    (hwd : ∀ (i : ℕ) (s : String), charsPrefix (wd i).data (tmpdir ++ s).data = false) :
    ∀ p ∈ (sync_route_fs dec srOf muxOf wd tmpdir files).2,
      charsPrefix tmpdir.data p.data = true ∧
      ∀ i, charsPrefix (wd i).data p.data = false := by
  intro p hp
  have hmain : charsPrefix tmpdir.data p.data = true := by
    by_cases hfe : files.isEmpty = true
    · simp only [sync_route_fs, hfe, if_true] at hp
      exact absurd hp (List.not_mem_nil p)
    · have hfe2 : files.isEmpty = false := by
        cases h : files.isEmpty
        · rfl
        · exact absurd h hfe
      simp only [sync_route_fs, hfe2, Bool.false_eq_true, if_false] at hp
      rcases hj : job_loop dec srOf muxOf wd tmpdir 0 (classify_and_group_files tmpdir files)
          [] ((files.filter (fun f => ! (f == ""))).map (fun f => tmpdir ++ "/" ++ f))
        with ⟨r, fs⟩
      rw [hj] at hp
      have hfs : ∀ q, q ∈ fs → charsPrefix tmpdir.data q.data = true := by
        intro q hq
        have := job_loop_fs_mem dec srOf muxOf wd tmpdir _ _ _ _ q (by rw [hj]; exact hq)
        rcases this with h1 | h1
        · rcases List.mem_map.mp h1 with ⟨f, _, hf⟩
          rw [← hf]
          exact charsPrefix_append_two tmpdir _ _
        · exact h1
      cases r with
      | error e =>
        simp only at hp
        exact hfs p hp
      | ok outs =>
        simp only at hp
        by_cases hne : outs.isEmpty = true
        · rw [if_pos hne] at hp
          exact hfs p hp
        · rw [if_neg hne] at hp
          by_cases hl : outs.length = 1
          · rw [if_pos hl] at hp
            exact hfs p hp
          · rw [if_neg hl] at hp
            rcases List.mem_append.mp hp with h1 | h1
            · exact hfs p h1
            · rw [List.mem_singleton.mp h1]
              exact charsPrefix_append_one tmpdir _
  refine ⟨hmain, ?_⟩
  intro i
  obtain ⟨t, ht⟩ := eq_append_of_charsPrefix hmain
  have h2 := hwd i (String.mk t)
  rw [String.data_append] at h2
  rw [ht]
  exact h2

/-- C9 counterexample: a fully successful run at concrete inputs leaves the
two uploaded copies and the produced output on disk when the route returns
(the `finally` block is `pass`), refuting the claim that every temporary file
of the run is deleted on every exit path. The clip-scoped scratch files under
`/wk0` are indeed gone from the final state. -/
theorem sync_route_leaves_run_files :
    (sync_route_fs (fun _ => true) (fun _ => 48000) (fun _ => true)
        (fun i => "/wk" ++ Nat.repr i) ("/t") ["A_cam.mp4", "A_zoom.wav"]).2 =
      ["/t/A_cam.mp4", "/t/A_zoom.wav", "/t/A_synced.mov"] ∧
    (sync_route_fs (fun _ => true) (fun _ => 48000) (fun _ => true)
        (fun i => "/wk" ++ Nat.repr i) ("/t") ["A_cam.mp4", "A_zoom.wav"]).2 ≠ [] := by
  have h0 : (sync_route_fs (fun _ => true) (fun _ => 48000) (fun _ => true)
      (fun i => "/wk" ++ Nat.repr i) ("/t") ["A_cam.mp4", "A_zoom.wav"]).2 =
      ["/t/A_cam.mp4", "/t/A_zoom.wav", "/t/A_synced.mov"] := rfl
  refine ⟨h0, ?_⟩
  rw [h0]
  simp

/-- The work-directory naming used in the concrete runs can never prefix a
path inside the run directory: the second characters already differ. -/
theorem wd_tmpdir_disjoint :
    ∀ (i : ℕ) (s : String),
      charsPrefix (("/wk" ++ Nat.repr i) : String).data (("/t" ++ s) : String).data = false := by
  intro i s
  have h1 : (("/wk" ++ Nat.repr i) : String).data = '/' :: 'w' :: 'k' :: (Nat.repr i).data := by
    rw [String.data_append]
    rfl
  have h2 : (("/t" ++ s) : String).data = '/' :: 't' :: s.data := by
    rw [String.data_append]
    rfl
  rw [h1, h2]
  simp only [charsPrefix]
  rw [show (('w' : Char) == 't') = false from by decide]
  simp

/-- Witness for C9's amended theorem at a concrete run: the leftover uploaded
copy `/t/A_cam.mp4` lies under the run directory and under no clip work
directory. -/
theorem sync_route_leftover_files_witness :
    charsPrefix ("/t" : String).data ("/t/A_cam.mp4" : String).data = true ∧
    ∀ i : ℕ, charsPrefix (("/wk" ++ Nat.repr i) : String).data
        ("/t/A_cam.mp4" : String).data = false :=
  sync_route_leftover_files (fun _ => true) (fun _ => 48000) (fun _ => true)
    (fun i => "/wk" ++ Nat.repr i) ("/t") ["A_cam.mp4", "A_zoom.wav"]
    wd_tmpdir_disjoint ("/t/A_cam.mp4") (by decide)

/-- Normalization preserves length. -/
theorem normalizeWave_length (xs : List ℝ) : (normalizeWave xs).length = xs.length := by
  simp [normalizeWave]

/-- A zero-sum signal has zero mean. -/
theorem mean_of_sum_zero {xs : List ℝ} (h : xs.sum = 0) : mean xs = 0 := by
  simp [mean, h]

/-- On a zero-mean signal, the normalization is a pure positive rescaling. -/
theorem normalizeWave_of_sum_zero {xs : List ℝ} (h : xs.sum = 0) :
    normalizeWave xs = xs.map (fun x => x / (stdOf xs + 1e-9)) := by
  unfold normalizeWave
  rw [mean_of_sum_zero h]
  simp

/-- The epsilon-floored standard deviation is positive. -/
theorem std_eps_pos (xs : List ℝ) : 0 < stdOf xs + 1e-9 := by
  have h1 : 0 ≤ stdOf xs := Real.sqrt_nonneg _
  have h2 : (0 : ℝ) < 1e-9 := by norm_num
  linarith

/-- `getD` through a pointwise division (out-of-range reads stay zero). -/
theorem getD_map_div (l : List ℝ) (c : ℝ) (j : ℕ) :
    (l.map (fun x => x / c)).getD j 0 = l.getD j 0 / c := by
  induction l generalizing j with
  | nil => simp
  | cons x xs ih =>
    cases j with
    | zero => rfl
    | succ m =>
      simp only [List.map_cons, List.getD_cons_succ]
      exact ih m

/-- Rescaling both signals rescales every correlation entry. -/
theorem corrAt_map_div (a v : List ℝ) (A B : ℝ) (k : ℤ) :
    corrAt (a.map (fun x => x / A)) (v.map (fun x => x / B)) k = corrAt a v k / (A * B) := by
  unfold corrAt
  rw [Finset.sum_div]
  simp only [List.length_map]
  apply Finset.sum_congr rfl
  intro j hj
  by_cases h : 0 ≤ (j : ℤ) - k
  · rw [if_pos h, if_pos h, getD_map_div, getD_map_div, div_mul_div_comm]
  · rw [if_neg h, if_neg h, zero_div]

/-- Rescaling both signals rescales the whole correlation sequence. -/
theorem correlateFull_map_div (a v : List ℝ) (A B : ℝ) :
    correlateFull (a.map (fun x => x / A)) (v.map (fun x => x / B)) =
      (correlateFull a v).map (fun x => x / (A * B)) := by
  unfold correlateFull
  simp only [List.length_map, List.map_map]
  apply List.map_congr_left
  intro i _
  simp only [Function.comp_apply]
  exact corrAt_map_div a v A B _

/-- The argmax scan is invariant under division by a positive constant. -/
theorem argmaxFrom_map_div (c : ℝ) (hc : 0 < c) :
    ∀ (xs : List ℝ) (i bi : ℕ) (bv : ℝ),
      argmaxFrom i bi (bv / c) (xs.map (fun x => x / c)) = argmaxFrom i bi bv xs := by
  intro xs
  induction xs with
  | nil =>
    intro i bi bv
    rfl
  | cons x t ih =>
    intro i bi bv
    simp only [List.map_cons, argmaxFrom]
    by_cases h : bv < x
    · rw [if_pos ((div_lt_div_iff_of_pos_right hc).mpr h), if_pos h, ih]
    · rw [if_neg (fun hx => h ((div_lt_div_iff_of_pos_right hc).mp hx)), if_neg h, ih]

/-- `np.argmax` is invariant under division by a positive constant. -/
theorem argmaxIdx_map_div (c : ℝ) (hc : 0 < c) (xs : List ℝ) :
    argmaxIdx (xs.map (fun x => x / c)) = argmaxIdx xs := by
  cases xs with
  | nil => rfl
  | cons x t =>
    simp only [List.map_cons, argmaxIdx]
    exact argmaxFrom_map_div c hc t 1 0 x

/-- The argmax scan keeps its running best when nothing exceeds it. -/
theorem argmaxFrom_all_le (xs : List ℝ) :
    ∀ (i bi : ℕ) (bv : ℝ), (∀ x ∈ xs, x ≤ bv) → argmaxFrom i bi bv xs = bi := by
  induction xs with
  | nil =>
    intro i bi bv _
    rfl
  | cons x t ih =>
    intro i bi bv h
    simp only [argmaxFrom]
    rw [if_neg (not_lt.mpr (h x (List.mem_cons_self x t)))]
    exact ih _ _ _ (fun y hy => h y (List.mem_cons_of_mem x hy))

/-- The argmax scan lands on a strict maximum that beats the running best. -/
theorem argmaxFrom_strict (xs : List ℝ) :
    ∀ (p : ℕ), p < xs.length →
      ∀ (i bi : ℕ) (bv : ℝ), bv < xs.getD p 0 →
        (∀ q, q < xs.length → q ≠ p → xs.getD q 0 < xs.getD p 0) →
        argmaxFrom i bi bv xs = i + p := by
  induction xs with
  | nil =>
    intro p hp
    exact absurd hp (Nat.not_lt_zero p)
  | cons x t ih =>
    intro p hp i bi bv hbv hmax
    cases p with
    | zero =>
      simp only [List.getD_cons_zero] at hbv
      simp only [argmaxFrom, if_pos hbv]
      have hall : ∀ y ∈ t, y ≤ x := by
        intro y hy
        rcases List.mem_iff_getElem.mp hy with ⟨q, hq, rfl⟩
        have h2 := hmax (q + 1) (by simpa using Nat.succ_lt_succ hq) (Nat.succ_ne_zero q)
        rw [List.getD_cons_succ, List.getD_eq_getElem t 0 hq, List.getD_cons_zero] at h2
        exact le_of_lt h2
      rw [argmaxFrom_all_le t _ _ _ hall]
      omega
    | succ m =>
      rw [List.getD_cons_succ] at hbv
      have hm : m < t.length := by
        simpa using hp
      have hx : x < t.getD m 0 := by
        have h0 := hmax 0 (by simp only [List.length_cons]; omega) (by omega)
        simpa [List.getD_cons_zero, List.getD_cons_succ] using h0
      have hmax2 : ∀ q, q < t.length → q ≠ m → t.getD q 0 < t.getD m 0 := by
        intro q hq hqm
        have h0 := hmax (q + 1) (by simp only [List.length_cons]; omega) (by omega)
        simpa [List.getD_cons_succ] using h0
      simp only [argmaxFrom]
      by_cases h : bv < x
      · rw [if_pos h, ih m hm (i + 1) i x hx hmax2]
        omega
      · rw [if_neg h, ih m hm (i + 1) bi bv hbv hmax2]
        omega

/-- `np.argmax` finds the index of a strict maximum. -/
theorem argmaxIdx_strict (xs : List ℝ) (p : ℕ) (hp : p < xs.length)
    (hmax : ∀ q, q < xs.length → q ≠ p → xs.getD q 0 < xs.getD p 0) :
    argmaxIdx xs = p := by
  cases xs with
  | nil => exact absurd hp (Nat.not_lt_zero p)
  | cons x t =>
    cases p with
    | zero =>
      simp only [argmaxIdx]
      apply argmaxFrom_all_le
      intro y hy
      rcases List.mem_iff_getElem.mp hy with ⟨q, hq, rfl⟩
      have h2 := hmax (q + 1) (by simpa using Nat.succ_lt_succ hq) (Nat.succ_ne_zero q)
      rw [List.getD_cons_succ, List.getD_eq_getElem t 0 hq, List.getD_cons_zero] at h2
      exact le_of_lt h2
    | succ m =>
      simp only [argmaxIdx]
      have hm : m < t.length := by simpa using hp
      have hx : x < t.getD m 0 := by
        have h0 := hmax 0 (by simp only [List.length_cons]; omega) (by omega)
        simpa [List.getD_cons_zero, List.getD_cons_succ] using h0
      have hmax2 : ∀ q, q < t.length → q ≠ m → t.getD q 0 < t.getD m 0 := by
        intro q hq hqm
        have h0 := hmax (q + 1) (by simp only [List.length_cons]; omega) (by omega)
        simpa [List.getD_cons_succ] using h0
      rw [argmaxFrom_strict t m hm 1 0 x hx hmax2]
      omega

/-- Reading any index of an all-zero list gives zero. -/
theorem getD_replicate_zero (z j : ℕ) : (List.replicate z (0 : ℝ)).getD j 0 = 0 := by
  induction z generalizing j with
  | zero => simp
  | succ m ih =>
    cases j with
    | zero => rfl
    | succ i => simpa [List.replicate_succ, List.getD_cons_succ] using ih i

/-- `sampleZ` at a natural index agrees with `getD`. -/
theorem sampleZ_natCast (l : List ℝ) (j : ℕ) : sampleZ l (j : ℤ) = l.getD j 0 := by
  unfold sampleZ
  by_cases h : (j : ℤ) < (l.length : ℤ)
  · rw [if_pos ⟨Int.natCast_nonneg j, h⟩]
    simp
  · rw [if_neg (fun hc => h hc.2)]
    exact (List.getD_eq_default l 0 (by omega)).symm

/-- `sampleZ` at a negative index is zero. -/
theorem sampleZ_neg (l : List ℝ) (z : ℤ) (hz : z < 0) : sampleZ l z = 0 := by
  unfold sampleZ
  exact if_neg (fun hc => absurd hc.1 (not_le.mpr hz))

/-- Reading an index of the zero-padded delayed copy is reading the original
`d` samples earlier. -/
theorem padded_getD (d : ℕ) (cam : List ℝ) (m : ℕ) :
    (List.replicate d (0 : ℝ) ++ cam).getD m 0 = sampleZ cam ((m : ℤ) - d) := by
  induction d generalizing m with
  | zero =>
    rw [show ((m : ℤ) - ((0 : ℕ) : ℤ)) = (m : ℤ) by simp]
    simp only [List.replicate_zero, List.nil_append]
    exact (sampleZ_natCast cam m).symm
  | succ t ih =>
    cases m with
    | zero =>
      simp only [List.replicate_succ, List.cons_append, List.getD_cons_zero]
      exact (sampleZ_neg cam _ (by omega)).symm
    | succ m2 =>
      simp only [List.replicate_succ, List.cons_append, List.getD_cons_succ]
      rw [ih m2]
      congr 1
      push_cast
      ring

/-- The cross-correlation against the zero-padded delayed copy is the shifted
autocorrelation sum. -/
theorem corrAt_pad (cam : List ℝ) (d : ℕ) (k : ℤ) :
    corrAt cam (List.replicate d 0 ++ cam) k = autocorrShift cam (k + d) := by
  unfold corrAt autocorrShift
  apply Finset.sum_congr rfl
  intro j hj
  rw [Finset.mem_range] at hj
  by_cases h : 0 ≤ (j : ℤ) - k
  · rw [if_pos h, padded_getD, Int.toNat_of_nonneg h, ← sampleZ_natCast cam j]
    congr 1
    ring
  · rw [if_neg h, eq_comm, sampleZ_neg cam ((j : ℤ) - (k + d)) (by omega), mul_zero]

/-- The unshifted autocorrelation is the signal's energy. -/
theorem autocorrShift_zero_eq (cam : List ℝ) :
    autocorrShift cam 0 = ∑ j ∈ Finset.range cam.length, (sampleZ cam (j : ℤ)) ^ 2 := by
  unfold autocorrShift
  apply Finset.sum_congr rfl
  intro j _
  rw [sub_zero, sq]

/-- The energy seen through any shifted window is at most the full energy. -/
theorem shifted_energy_le (cam : List ℝ) (m : ℤ) :
    ∑ j ∈ Finset.range cam.length, (sampleZ cam ((j : ℤ) - m)) ^ 2 ≤
      ∑ j ∈ Finset.range cam.length, (sampleZ cam (j : ℤ)) ^ 2 := by
  have himg1 : ∑ z ∈ (Finset.range cam.length).image (fun (j : ℕ) => (j : ℤ) - m),
      (sampleZ cam z) ^ 2 =
      ∑ j ∈ Finset.range cam.length, (sampleZ cam ((j : ℤ) - m)) ^ 2 :=
    Finset.sum_image (by intro a _ b _ hab; omega)
  have himg2 : ∑ z ∈ (Finset.range cam.length).image (fun (j : ℕ) => (j : ℤ)),
      (sampleZ cam z) ^ 2 =
      ∑ j ∈ Finset.range cam.length, (sampleZ cam (j : ℤ)) ^ 2 :=
    Finset.sum_image (by intro a _ b _ hab; omega)
  rw [← himg1, ← himg2]
  have hzero : ∀ z ∈ (Finset.range cam.length).image (fun (j : ℕ) => (j : ℤ) - m) \
      (Finset.range cam.length).image (fun (j : ℕ) => (j : ℤ)), (sampleZ cam z) ^ 2 = 0 := by
    intro z hz
    rw [Finset.mem_sdiff] at hz
    have hns : ¬(0 ≤ z ∧ z < (cam.length : ℤ)) := by
      intro hc
      apply hz.2
      rw [Finset.mem_image]
      exact ⟨z.toNat, Finset.mem_range.mpr (by omega), by omega⟩
    unfold sampleZ
    rw [if_neg hns]
    exact zero_pow (by norm_num)
  calc ∑ z ∈ (Finset.range cam.length).image (fun (j : ℕ) => (j : ℤ) - m), (sampleZ cam z) ^ 2
      = ∑ z ∈ (Finset.range cam.length).image (fun (j : ℕ) => (j : ℤ) - m) ∩
            (Finset.range cam.length).image (fun (j : ℕ) => (j : ℤ)), (sampleZ cam z) ^ 2 +
        ∑ z ∈ (Finset.range cam.length).image (fun (j : ℕ) => (j : ℤ) - m) \
            (Finset.range cam.length).image (fun (j : ℕ) => (j : ℤ)), (sampleZ cam z) ^ 2 :=
        (Finset.sum_inter_add_sum_diff _ _ _).symm
    _ = ∑ z ∈ (Finset.range cam.length).image (fun (j : ℕ) => (j : ℤ) - m) ∩
            (Finset.range cam.length).image (fun (j : ℕ) => (j : ℤ)), (sampleZ cam z) ^ 2 := by
        rw [Finset.sum_eq_zero hzero]
        ring
    _ ≤ ∑ z ∈ (Finset.range cam.length).image (fun (j : ℕ) => (j : ℤ)), (sampleZ cam z) ^ 2 :=
        Finset.sum_le_sum_of_subset_of_nonneg Finset.inter_subset_right
          (fun z _ _ => sq_nonneg _)

/-- Every shifted autocorrelation is at most the energy. -/
theorem autocorrShift_le (cam : List ℝ) (m : ℤ) :
    autocorrShift cam m ≤ autocorrShift cam 0 := by
  have hterm : ∀ j ∈ Finset.range cam.length,
      sampleZ cam (j : ℤ) * sampleZ cam ((j : ℤ) - m) ≤
        ((sampleZ cam (j : ℤ)) ^ 2 + (sampleZ cam ((j : ℤ) - m)) ^ 2) / 2 := by
    intro j _
    have h2 := two_mul_le_add_sq (sampleZ cam (j : ℤ)) (sampleZ cam ((j : ℤ) - m))
    linarith
  calc autocorrShift cam m
      ≤ ∑ j ∈ Finset.range cam.length,
          ((sampleZ cam (j : ℤ)) ^ 2 + (sampleZ cam ((j : ℤ) - m)) ^ 2) / 2 :=
        Finset.sum_le_sum hterm
    _ = ((∑ j ∈ Finset.range cam.length, (sampleZ cam (j : ℤ)) ^ 2) +
          ∑ j ∈ Finset.range cam.length, (sampleZ cam ((j : ℤ) - m)) ^ 2) / 2 := by
        rw [← Finset.sum_add_distrib, ← Finset.sum_div]
    _ ≤ ((∑ j ∈ Finset.range cam.length, (sampleZ cam (j : ℤ)) ^ 2) +
          ∑ j ∈ Finset.range cam.length, (sampleZ cam (j : ℤ)) ^ 2) / 2 := by
        have h3 := shifted_energy_le cam m
        linarith
    _ = ∑ j ∈ Finset.range cam.length, (sampleZ cam (j : ℤ)) ^ 2 := by ring
    _ = autocorrShift cam 0 := (autocorrShift_zero_eq cam).symm

/-- If a shifted autocorrelation attains the energy, the signal equals its
own shift on the whole window. -/
theorem autocorrShift_eq_imp (cam : List ℝ) (m : ℤ)
    (h : autocorrShift cam m = autocorrShift cam 0) :
    ∀ j ∈ Finset.range cam.length, sampleZ cam (j : ℤ) = sampleZ cam ((j : ℤ) - m) := by
  have hexp : ∑ j ∈ Finset.range cam.length,
      (sampleZ cam (j : ℤ) - sampleZ cam ((j : ℤ) - m)) ^ 2 =
      (∑ j ∈ Finset.range cam.length, (sampleZ cam (j : ℤ)) ^ 2) -
        2 * autocorrShift cam m +
        ∑ j ∈ Finset.range cam.length, (sampleZ cam ((j : ℤ) - m)) ^ 2 := by
    unfold autocorrShift
    rw [Finset.mul_sum, ← Finset.sum_sub_distrib, ← Finset.sum_add_distrib]
    apply Finset.sum_congr rfl
    intro j _
    ring
  have hdiff : ∑ j ∈ Finset.range cam.length,
      (sampleZ cam (j : ℤ) - sampleZ cam ((j : ℤ) - m)) ^ 2 = 0 := by
    have hE2 := shifted_energy_le cam m
    have hnn : 0 ≤ ∑ j ∈ Finset.range cam.length,
        (sampleZ cam (j : ℤ) - sampleZ cam ((j : ℤ) - m)) ^ 2 :=
      Finset.sum_nonneg (fun j _ => sq_nonneg _)
    have hzero := autocorrShift_zero_eq cam
    linarith [hexp, hE2, hnn]
  intro j hj
  have h1 := (Finset.sum_eq_zero_iff_of_nonneg (fun i _ => sq_nonneg _)).mp hdiff j hj
  have h2 : sampleZ cam (j : ℤ) - sampleZ cam ((j : ℤ) - m) = 0 :=
    (pow_eq_zero_iff (by norm_num)).mp h1
  linarith

/-- A signal equal to its own positive shift everywhere is zero. -/
theorem all_zero_of_shift_pos (cam : List ℝ) (m : ℤ) (hm : 0 < m)
    (h : ∀ j ∈ Finset.range cam.length, sampleZ cam (j : ℤ) = sampleZ cam ((j : ℤ) - m)) :
    ∀ j, j < cam.length → cam.getD j 0 = 0 := by
  intro j
  induction j using Nat.strong_induction_on with
  | _ j ih =>
    intro hj
    have hh := h j (Finset.mem_range.mpr hj)
    rw [sampleZ_natCast] at hh
    by_cases hneg : (j : ℤ) - m < 0
    · rw [hh, sampleZ_neg cam _ hneg]
    · push_neg at hneg
      have htn : ((j : ℤ) - m).toNat < j := by omega
      have htlen : ((j : ℤ) - m).toNat < cam.length := by omega
      have hz := ih _ htn htlen
      rw [hh]
      unfold sampleZ
      rw [if_pos ⟨hneg, by omega⟩]
      exact hz

/-- A signal equal to its own negative shift everywhere is zero. -/
theorem all_zero_of_shift_neg (cam : List ℝ) (m : ℤ) (hm : m < 0)
    (h : ∀ j ∈ Finset.range cam.length, sampleZ cam (j : ℤ) = sampleZ cam ((j : ℤ) - m)) :
    ∀ j, j < cam.length → cam.getD j 0 = 0 := by
  suffices H : ∀ t j, cam.length - j = t → j < cam.length → cam.getD j 0 = 0 by
    intro j hj
    exact H (cam.length - j) j rfl hj
  intro t
  induction t using Nat.strong_induction_on with
  | _ t ih =>
    intro j ht hj
    have hh := h j (Finset.mem_range.mpr hj)
    rw [sampleZ_natCast] at hh
    by_cases hbig : (cam.length : ℤ) ≤ (j : ℤ) - m
    · rw [hh]
      unfold sampleZ
      rw [if_neg (fun hc => absurd hc.2 (not_lt.mpr hbig))]
    · push_neg at hbig
      have h0 : 0 ≤ (j : ℤ) - m := by omega
      have hgt : j < ((j : ℤ) - m).toNat := by omega
      have hlen : ((j : ℤ) - m).toNat < cam.length := by omega
      have hz := ih (cam.length - ((j : ℤ) - m).toNat) (by omega) _ rfl hlen
      rw [hh]
      unfold sampleZ
      rw [if_pos ⟨h0, by omega⟩]
      exact hz

/-- A signal with a nonzero sample has positive energy. -/
theorem energy_pos (cam : List ℝ) (hnz : ∃ x ∈ cam, x ≠ 0) :
    0 < autocorrShift cam 0 := by
  rw [autocorrShift_zero_eq]
  obtain ⟨x, hx, hxne⟩ := hnz
  rcases List.mem_iff_getElem.mp hx with ⟨j, hj, rfl⟩
  have hterm : 0 < (sampleZ cam (j : ℤ)) ^ 2 := by
    rw [sampleZ_natCast, List.getD_eq_getElem cam 0 hj]
    exact lt_of_le_of_ne (sq_nonneg _) (Ne.symm (pow_ne_zero 2 hxne))
  have hle : (sampleZ cam (j : ℤ)) ^ 2 ≤
      ∑ i ∈ Finset.range cam.length, (sampleZ cam (i : ℤ)) ^ 2 := by
    apply Finset.single_le_sum (fun i _ => sq_nonneg _) (Finset.mem_range.mpr hj)
  linarith

/-- For a nonzero signal, every nonzero shift is strictly below the energy:
the autocorrelation peak at shift zero is strict. -/
theorem autocorrShift_lt (cam : List ℝ) (m : ℤ) (hm : m ≠ 0)
    (hnz : ∃ x ∈ cam, x ≠ 0) :
    autocorrShift cam m < autocorrShift cam 0 := by
  rcases eq_or_lt_of_le (autocorrShift_le cam m) with heq | hlt
  · exfalso
    have hall := autocorrShift_eq_imp cam m heq
    have hzero : ∀ j, j < cam.length → cam.getD j 0 = 0 := by
      rcases lt_or_gt_of_ne hm with hneg | hpos
      · exact all_zero_of_shift_neg cam m hneg hall
      · exact all_zero_of_shift_pos cam m hpos hall
    obtain ⟨x, hx, hxne⟩ := hnz
    rcases List.mem_iff_getElem.mp hx with ⟨j, hj, rfl⟩
    apply hxne
    rw [← List.getD_eq_getElem cam 0 hj]
    exact hzero j hj
  · exact hlt

/-- Entries of the correlation sequence. -/
theorem correlateFull_getD (a v : List ℝ) (i : ℕ) (hi : i < a.length + v.length - 1) :
    (correlateFull a v).getD i 0 = corrAt a v ((i : ℤ) - ((v.length : ℤ) - 1)) := by
  unfold correlateFull
  rw [List.getD_eq_getElem _ 0 (by simpa using hi)]
  simp only [List.getElem_map, List.getElem_range]

/-- C2 (amended): offset sign convention for exact whole-sample delays — for
every zero-mean reference waveform containing a nonzero sample and every
delay of `d` whole samples (the copy zero-padded at the start),
`estimate_offset_seconds` returns exactly `+d / sample_rate` seconds, hence
in particular a value within one sample period of the true delay `+d`. The
advanced-copy direction and degenerate references are not claimed: both fail
on the code (see the counterexample). -/
theorem estimate_offset_delayed (cam : List ℝ) (d : ℕ) (sr : ℕ)
    (hsum : cam.sum = 0) (hnz : ∃ x ∈ cam, x ≠ 0) :
    estimate_offset_seconds cam (List.replicate d 0 ++ cam) sr =
      (d : ℝ) / (sr : ℝ) := by
  have hne : cam ≠ [] := by
    obtain ⟨x, hx, _⟩ := hnz
    exact List.ne_nil_of_mem hx
  have hn1 : 1 ≤ cam.length := List.length_pos.mpr hne
  have hsumext : (List.replicate d (0 : ℝ) ++ cam).sum = 0 := by
    simp [hsum]
  have hlenext : (List.replicate d (0 : ℝ) ++ cam).length = d + cam.length := by simp
  have hA := normalizeWave_of_sum_zero hsum
  have hB := normalizeWave_of_sum_zero hsumext
  have hargmax : argmaxIdx (correlateFull cam (List.replicate d 0 ++ cam)) =
      cam.length - 1 := by
    apply argmaxIdx_strict
    · simp only [correlateFull, List.length_map, List.length_range, hlenext]
      omega
    · intro q hq hqne
      simp only [correlateFull, List.length_map, List.length_range, hlenext] at hq
      rw [correlateFull_getD _ _ q (by rw [hlenext]; omega),
        correlateFull_getD _ _ (cam.length - 1) (by rw [hlenext]; omega),
        corrAt_pad, corrAt_pad]
      have harg2 : ((cam.length - 1 : ℕ) : ℤ) -
          (((List.replicate d (0 : ℝ) ++ cam).length : ℤ) - 1) + (d : ℤ) = 0 := by
        rw [hlenext, Nat.cast_sub hn1]
        push_cast
        ring
      rw [harg2]
      apply autocorrShift_lt
      · rw [hlenext]
        intro hc
        apply hqne
        omega
      · exact hnz
  simp only [estimate_offset_seconds]
  rw [hA, hB, correlateFull_map_div,
    argmaxIdx_map_div _ (mul_pos (std_eps_pos cam) (std_eps_pos _)), hargmax]
  simp only [List.length_map, hlenext]
  rw [Nat.cast_sub hn1]
  push_cast
  ring

/-- C2 counterexample: the claim fails on a constant (silent) reference,
which the epsilon floor explicitly admits. For `cam = [1, 1, 1]` at 48000 Hz,
both its 1-sample-delayed copy (`d = 1/48000` s) and its 1-sample-advanced
copy normalize the reference to the zero signal, the correlation is
identically zero, `np.argmax` returns index 0, and the estimator returns
`3/48000` s (delayed case; more than one sample period away from `+1/48000`)
and `1/48000` s (advanced case; more than one sample period away from
`-1/48000`). -/
theorem estimate_offset_constant_cex :
    estimate_offset_seconds [(1 : ℝ), 1, 1] (List.replicate 1 0 ++ [(1 : ℝ), 1, 1]) 48000 =
        3 / 48000 ∧
    estimate_offset_seconds [(1 : ℝ), 1, 1] (List.drop 1 [(1 : ℝ), 1, 1]) 48000 =
        1 / 48000 ∧
    ¬ |(3 : ℝ) / 48000 - 1 / 48000| ≤ 1 / 48000 ∧
    ¬ |(1 : ℝ) / 48000 - -1 / 48000| ≤ 1 / 48000 := by
  have hmean : mean [(1 : ℝ), 1, 1] = 1 := by
    norm_num [mean, List.sum_cons]
  have hcent : ([(1 : ℝ), 1, 1]).map (fun x => x - mean [(1 : ℝ), 1, 1]) = [0, 0, 0] := by
    rw [hmean]
    norm_num
  have hnorm : normalizeWave [(1 : ℝ), 1, 1] = [0, 0, 0] := by
    unfold normalizeWave
    rw [hcent]
    norm_num
  have hcorrzero : ∀ (v : List ℝ) (k : ℤ), corrAt [(0 : ℝ), 0, 0] v k = 0 := by
    intro v k
    unfold corrAt
    apply Finset.sum_eq_zero
    intro j hj
    by_cases h : 0 ≤ (j : ℤ) - k
    · rw [if_pos h]
      have hz : ([(0 : ℝ), 0, 0]).getD j 0 = 0 := by
        rw [show [(0 : ℝ), 0, 0] = List.replicate 3 0 from rfl]
        exact getD_replicate_zero 3 j
      rw [hz, zero_mul]
    · rw [if_neg h]
  have hallzero : ∀ (v : List ℝ),
      ∀ q ∈ correlateFull [(0 : ℝ), 0, 0] v, q = 0 := by
    intro v q hq
    rcases List.mem_map.mp hq with ⟨i, _, rfl⟩
    exact hcorrzero v _
  have hargzero : ∀ (v : List ℝ), argmaxIdx (correlateFull [(0 : ℝ), 0, 0] v) = 0 := by
    intro v
    rcases hc : correlateFull [(0 : ℝ), 0, 0] v with _ | ⟨x, t⟩
    · rfl
    · simp only [argmaxIdx]
      apply argmaxFrom_all_le
      intro y hy
      have hy0 : y = 0 := hallzero v y (by rw [hc]; exact List.mem_cons_of_mem x hy)
      have hx0 : x = 0 := hallzero v x (by rw [hc]; exact List.mem_cons_self x t)
      rw [hy0, hx0]
  constructor
  · simp only [estimate_offset_seconds]
    rw [hnorm, hargzero]
    have hlen : (normalizeWave (List.replicate 1 0 ++ [(1 : ℝ), 1, 1])).length = 4 := by
      rw [normalizeWave_length]
      rfl
    rw [hlen]
    norm_num
  refine ⟨?_, ?_, ?_⟩
  · simp only [estimate_offset_seconds]
    rw [show List.drop 1 [(1 : ℝ), 1, 1] = [(1 : ℝ), 1] from rfl, hnorm, hargzero]
    have hlen : (normalizeWave [(1 : ℝ), 1]).length = 2 := by
      rw [normalizeWave_length]
      rfl
    rw [hlen]
    norm_num
  · rw [show (3 : ℝ) / 48000 - 1 / 48000 = 2 / 48000 by norm_num,
      abs_of_pos (by norm_num : (0 : ℝ) < 2 / 48000)]
    norm_num
  · rw [show (1 : ℝ) / 48000 - -1 / 48000 = 2 / 48000 by norm_num,
      abs_of_pos (by norm_num : (0 : ℝ) < 2 / 48000)]
    norm_num

/-- Witness for C2's amended theorem: the zero-mean reference `[1, -1]`
delayed by one sample at 48000 Hz estimates exactly `+1/48000` s. -/
theorem estimate_offset_delayed_witness :
    estimate_offset_seconds [(1 : ℝ), -1] (List.replicate 1 0 ++ [(1 : ℝ), -1]) 48000 =
      ((1 : ℕ) : ℝ) / ((48000 : ℕ) : ℝ) :=
  estimate_offset_delayed [(1 : ℝ), -1] 1 48000 (by norm_num)
    ⟨1, by simp, by norm_num⟩

/-- A buffer id is bound exactly when it occurs among the store's ids. -/
theorem readBufOpt_isSome_iff (st : List (ℕ × List ℝ)) (i : ℕ) :
    (readBufOpt st i).isSome ↔ i ∈ bufIds st := by
  induction st with
  | nil => simp [readBufOpt, bufIds]
  | cons a rest ih =>
    simp only [readBufOpt, bufIds, List.map_cons, List.mem_cons]
    by_cases ha : a.1 = i
    · rw [if_pos ha]
      simp [ha.symm]
    · rw [if_neg ha]
      unfold bufIds at ih
      rw [ih]
      constructor
      · exact fun h => Or.inr h
      · rintro (h | h)
        · exact absurd h.symm ha
        · exact h

/-- Appending a new buffer does not change reads of bound ids, and binds the
new id when it was absent. -/
theorem readBufOpt_append_sing (st : List (ℕ × List ℝ)) (k : ℕ) (v : List ℝ) (j : ℕ) :
    readBufOpt (st ++ [(k, v)]) j =
      if (readBufOpt st j).isSome then readBufOpt st j
      else if k = j then some v else none := by
  induction st with
  | nil => simp [readBufOpt]
  | cons a rest ih =>
    simp only [List.cons_append, readBufOpt]
    by_cases ha : a.1 = j
    · rw [if_pos ha, if_pos ha]
      simp
    · rw [if_neg ha, if_neg ha]
      exact ih

/-- Writing one buffer leaves reads of every other id unchanged. -/
theorem readBufOpt_writeBuf_ne (st : List (ℕ × List ℝ)) (i : ℕ) (data : List ℝ)
    (j : ℕ) (hne : j ≠ i) :
    readBufOpt (writeBuf st i data) j = readBufOpt st j := by
  induction st with
  | nil => rfl
  | cons a rest ih =>
    simp only [writeBuf, List.map_cons]
    by_cases ha : a.1 = i
    · rw [if_pos ha]
      simp only [readBufOpt]
      rw [if_neg (fun h => hne h.symm), if_neg (fun h => hne (ha.symm.trans h).symm)]
      exact ih
    · rw [if_neg ha]
      simp only [readBufOpt]
      by_cases haj : a.1 = j
      · rw [if_pos haj, if_pos haj]
      · rw [if_neg haj, if_neg haj]
        exact ih

/-- Writing a bound buffer makes its read return the new data. -/
theorem readBufOpt_writeBuf_self (st : List (ℕ × List ℝ)) (i : ℕ) (data : List ℝ)
    (h : (readBufOpt st i).isSome) :
    readBufOpt (writeBuf st i data) i = some data := by
  induction st with
  | nil => simp [readBufOpt] at h
  | cons a rest ih =>
    simp only [writeBuf, List.map_cons]
    by_cases ha : a.1 = i
    · rw [if_pos ha]
      simp [readBufOpt]
    · rw [if_neg ha]
      simp only [readBufOpt, if_neg ha] at h ⊢
      exact ih h

/-- Every id in a list is at most its running maximum. -/
theorem le_fold_max (l : List ℕ) : ∀ x ∈ l, x ≤ l.foldr (fun a b => max a b) 0 := by
  induction l with
  | nil =>
    intro x hx
    simp at hx
  | cons a rest ih =>
    intro x hx
    rcases List.mem_cons.mp hx with h | h
    · subst h
      simp [List.foldr]
    · exact le_trans (ih x h) (by simp [List.foldr])

/-- The fresh id is genuinely fresh. -/
theorem freshId_not_mem (st : List (ℕ × List ℝ)) : freshId st ∉ bufIds st := by
  intro h
  have h2 := le_fold_max (bufIds st) (freshId st) h
  unfold freshId at h2
  omega

/-- Ids after appending one buffer. -/
theorem bufIds_append_sing (st : List (ℕ × List ℝ)) (k : ℕ) (v : List ℝ) :
    bufIds (st ++ [(k, v)]) = bufIds st ++ [k] := by
  simp [bufIds]

/-- C10: the offset estimator leaves its inputs unchanged — `astype` copies
both arrays (numpy's default `copy=True`), so after the call both input
buffers read exactly as before; the mean subtraction and std normalization
mutate only the internal copies; and the returned value equals the pure
estimator applied to the unmodified input data. -/
theorem estimate_offset_state_frame (st : List (ℕ × List ℝ)) (camId extId sr : ℕ)
    (hc : camId ∈ bufIds st) (he : extId ∈ bufIds st) :
    (readBufOpt (estimate_offset_seconds_state st camId extId sr).1 camId =
        readBufOpt st camId ∧
      readBufOpt (estimate_offset_seconds_state st camId extId sr).1 extId =
        readBufOpt st extId) ∧
    (estimate_offset_seconds_state st camId extId sr).2 =
      estimate_offset_seconds (readBuf st camId) (readBuf st extId) sr := by
  simp only [estimate_offset_seconds_state, astype, isubMean, idivStd]
  set d0 := readBuf st camId with hd0
  set f1 := freshId st with hf1
  set st1 := st ++ [(f1, d0)] with hst1
  set e0 := readBuf st1 extId with he0
  set f2 := freshId st1 with hf2
  set st2 := st1 ++ [(f2, e0)] with hst2
  have hf1c : f1 ≠ camId := by
    intro h
    apply freshId_not_mem st
    rw [← hf1, h]
    exact hc
  have hf1e : f1 ≠ extId := by
    intro h
    apply freshId_not_mem st
    rw [← hf1, h]
    exact he
  have hmem1 : ∀ j, j ∈ bufIds st → j ∈ bufIds st1 := by
    intro j hj
    rw [hst1, bufIds_append_sing]
    exact List.mem_append.mpr (Or.inl hj)
  have hf1mem : f1 ∈ bufIds st1 := by
    rw [hst1, bufIds_append_sing]
    exact List.mem_append.mpr (Or.inr (List.mem_singleton.mpr rfl))
  have hf2c : f2 ≠ camId := by
    intro h
    apply freshId_not_mem st1
    rw [← hf2, h]
    exact hmem1 camId hc
  have hf2e : f2 ≠ extId := by
    intro h
    apply freshId_not_mem st1
    rw [← hf2, h]
    exact hmem1 extId he
  have hf2f1 : f2 ≠ f1 := by
    intro h
    apply freshId_not_mem st1
    rw [← hf2, h]
    exact hf1mem
  have hcs : (readBufOpt st camId).isSome := (readBufOpt_isSome_iff st camId).mpr hc
  have hes : (readBufOpt st extId).isSome := (readBufOpt_isSome_iff st extId).mpr he
  have hnf1 : ¬ ((readBufOpt st f1).isSome = true) := by
    intro h
    apply freshId_not_mem st
    rw [← hf1]
    exact (readBufOpt_isSome_iff st f1).mp h
  have hnf2 : ¬ ((readBufOpt st1 f2).isSome = true) := by
    intro h
    apply freshId_not_mem st1
    rw [← hf2]
    exact (readBufOpt_isSome_iff st1 f2).mp h
  have h1c : readBufOpt st1 camId = readBufOpt st camId := by
    rw [hst1, readBufOpt_append_sing, if_pos hcs]
  have h1e : readBufOpt st1 extId = readBufOpt st extId := by
    rw [hst1, readBufOpt_append_sing, if_pos hes]
  have h1f1 : readBufOpt st1 f1 = some d0 := by
    rw [hst1, readBufOpt_append_sing, if_neg hnf1, if_pos rfl]
  have h2c : readBufOpt st2 camId = readBufOpt st camId := by
    rw [hst2, readBufOpt_append_sing, if_pos (by rw [h1c]; exact hcs), h1c]
  have h2e : readBufOpt st2 extId = readBufOpt st extId := by
    rw [hst2, readBufOpt_append_sing, if_pos (by rw [h1e]; exact hes), h1e]
  have h2f1 : readBufOpt st2 f1 = some d0 := by
    rw [hst2, readBufOpt_append_sing, if_pos (by rw [h1f1]; rfl), h1f1]
  have h2f2 : readBufOpt st2 f2 = some e0 := by
    rw [hst2, readBufOpt_append_sing, if_neg hnf2, if_pos rfl]
  have hr2f1 : readBuf st2 f1 = d0 := by
    unfold readBuf
    rw [h2f1]
    rfl
  rw [hr2f1]
  set c1 := d0.map (fun x => x - mean d0) with hc1
  set st3 := writeBuf st2 f1 c1 with hst3
  have h3f2 : readBufOpt st3 f2 = some e0 := by
    rw [hst3, readBufOpt_writeBuf_ne st2 f1 c1 f2 hf2f1, h2f2]
  have hr3f2 : readBuf st3 f2 = e0 := by
    unfold readBuf
    rw [h3f2]
    rfl
  rw [hr3f2]
  set c2 := e0.map (fun x => x - mean e0) with hc2
  set st4 := writeBuf st3 f2 c2 with hst4
  have h3f1 : readBufOpt st3 f1 = some c1 := by
    rw [hst3]
    exact readBufOpt_writeBuf_self st2 f1 c1 (by rw [h2f1]; rfl)
  have h4f1 : readBufOpt st4 f1 = some c1 := by
    rw [hst4, readBufOpt_writeBuf_ne st3 f2 c2 f1 (fun h => hf2f1 h.symm), h3f1]
  have hr4f1 : readBuf st4 f1 = c1 := by
    unfold readBuf
    rw [h4f1]
    rfl
  rw [hr4f1]
  set n1 := c1.map (fun x => x / (stdOf c1 + 1e-9)) with hn1def
  set st5 := writeBuf st4 f1 n1 with hst5
  have h4f2 : readBufOpt st4 f2 = some c2 := by
    rw [hst4]
    exact readBufOpt_writeBuf_self st3 f2 c2 (by rw [h3f2]; rfl)
  have h5f2 : readBufOpt st5 f2 = some c2 := by
    rw [hst5, readBufOpt_writeBuf_ne st4 f1 n1 f2 hf2f1, h4f2]
  have hr5f2 : readBuf st5 f2 = c2 := by
    unfold readBuf
    rw [h5f2]
    rfl
  rw [hr5f2]
  set n2 := c2.map (fun x => x / (stdOf c2 + 1e-9)) with hn2def
  set st6 := writeBuf st5 f2 n2 with hst6
  have h6c : readBufOpt st6 camId = readBufOpt st camId := by
    rw [hst6, readBufOpt_writeBuf_ne st5 f2 n2 camId (fun h => hf2c h.symm),
      hst5, readBufOpt_writeBuf_ne st4 f1 n1 camId (fun h => hf1c h.symm),
      hst4, readBufOpt_writeBuf_ne st3 f2 c2 camId (fun h => hf2c h.symm),
      hst3, readBufOpt_writeBuf_ne st2 f1 c1 camId (fun h => hf1c h.symm), h2c]
  have h6e : readBufOpt st6 extId = readBufOpt st extId := by
    rw [hst6, readBufOpt_writeBuf_ne st5 f2 n2 extId (fun h => hf2e h.symm),
      hst5, readBufOpt_writeBuf_ne st4 f1 n1 extId (fun h => hf1e h.symm),
      hst4, readBufOpt_writeBuf_ne st3 f2 c2 extId (fun h => hf2e h.symm),
      hst3, readBufOpt_writeBuf_ne st2 f1 c1 extId (fun h => hf1e h.symm), h2e]
  have h6f1 : readBufOpt st6 f1 = some n1 := by
    rw [hst6, readBufOpt_writeBuf_ne st5 f2 n2 f1 (fun h => hf2f1 h.symm), hst5]
    exact readBufOpt_writeBuf_self st4 f1 n1 (by rw [h4f1]; rfl)
  have h6f2 : readBufOpt st6 f2 = some n2 := by
    rw [hst6]
    exact readBufOpt_writeBuf_self st5 f2 n2 (by rw [h5f2]; rfl)
  have hr6f1 : readBuf st6 f1 = n1 := by
    unfold readBuf
    rw [h6f1]
    rfl
  have hr6f2 : readBuf st6 f2 = n2 := by
    unfold readBuf
    rw [h6f2]
    rfl
  have he0eq : e0 = readBuf st extId := by
    rw [he0]
    unfold readBuf
    rw [h1e]
  have hn1eq : n1 = normalizeWave d0 := by
    rw [hn1def, hc1]
    rfl
  have hn2eq : n2 = normalizeWave (readBuf st extId) := by
    rw [hn2def, hc2, he0eq]
    rfl
  refine ⟨⟨h6c, h6e⟩, ?_⟩
  rw [hr6f1, hr6f2, hn1eq, hn2eq]
  rfl

/-- Witness for C10 at a concrete two-buffer store: both inputs read back
unchanged and the returned value is the pure estimate. -/
theorem estimate_offset_state_frame_witness :
    (readBufOpt (estimate_offset_seconds_state [(0, [(1 : ℝ), 2]), (1, [(3 : ℝ)])] 0 1 48000).1 0 =
        readBufOpt [(0, [(1 : ℝ), 2]), (1, [(3 : ℝ)])] 0 ∧
      readBufOpt (estimate_offset_seconds_state [(0, [(1 : ℝ), 2]), (1, [(3 : ℝ)])] 0 1 48000).1 1 =
        readBufOpt [(0, [(1 : ℝ), 2]), (1, [(3 : ℝ)])] 1) ∧
    (estimate_offset_seconds_state [(0, [(1 : ℝ), 2]), (1, [(3 : ℝ)])] 0 1 48000).2 =
      estimate_offset_seconds (readBuf [(0, [(1 : ℝ), 2]), (1, [(3 : ℝ)])] 0)
        (readBuf [(0, [(1 : ℝ), 2]), (1, [(3 : ℝ)])] 1) 48000 :=
  estimate_offset_state_frame [(0, [(1 : ℝ), 2]), (1, [(3 : ℝ)])] 0 1 48000
    (by decide) (by decide)
